import Mathlib

/-!
Verification of the entity-resolution and normalization core of the
alcohol-catalog scripts (`scripts/alcohol_data_processor.py`,
`scripts/alcohol_data_integrity.py`, `scripts/alcohol_backup_restorer.py`,
`scripts/alcohol_sheets_client.py`, `scripts/alcohol_data_config.py`).

Modelling conventions:
* Python strings are `List Char` (the data is ASCII).
* Python floats are modelled as exact rationals represented as
  numerator/denominator pairs of naturals, compared by cross-multiplication.
  All ratios that occur have tiny denominators, so the exact comparison
  agrees with the float comparison performed by the scripts.
* Python dict-records are a structure whose fields default to the empty
  string, mirroring `dict.get(field, "")`.
* `difflib.SequenceMatcher` (no junk, short strings so autojunk is inert) is
  embedded by `findLongestMatch` / `matchesTotal` below.
-/

namespace Alcohol

abbrev Str := List Char

def str (s : String) : Str := s.data

/-- Python whitespace characters recognised by `str.strip()` (ASCII range). -/
def isSpaceChar (c : Char) : Bool :=
  c == Char.ofNat 32 || c == Char.ofNat 9 || c == Char.ofNat 10 ||
  c == Char.ofNat 13 || c == Char.ofNat 11 || c == Char.ofNat 12

/-- ASCII `str.lower()` on one character. -/
def lowerChar (c : Char) : Char :=
  if 65 ≤ c.toNat ∧ c.toNat ≤ 90 then Char.ofNat (c.toNat + 32) else c

/-- ASCII `str.lower()`. -/
def lowerStr (s : Str) : Str := s.map lowerChar

/-- Python `str.strip()` (ASCII whitespace). -/
def pyStrip (s : Str) : Str :=
  ((s.dropWhile isSpaceChar).reverse.dropWhile isSpaceChar).reverse

/-- Length of the longest common prefix of two strings. -/
def lcpLen : Str → Str → Nat
  | c :: cs, d :: ds => if c = d then lcpLen cs ds + 1 else 0
  | _, _ => 0

/-- `difflib.SequenceMatcher.find_longest_match` over the whole strings
(no junk): the longest matching block `(i, j, k)`, ties broken by the
smallest `i`, then the smallest `j` — realised by scanning all start pairs
in ascending order and keeping the first block of each strictly larger
size, exactly as the `k > bestsize` update in `difflib` does. -/
def findLongestMatch (a b : Str) : Nat × Nat × Nat :=
  ((List.range a.length).flatMap fun i =>
      (List.range b.length).map fun j => (i, j, lcpLen (a.drop i) (b.drop j))).foldl
    (fun best c => if c.2.2 > best.2.2 then c else best) (0, 0, 0)

/-- Fuelled total sum of matching-block sizes, the `M` of
`SequenceMatcher.ratio() = 2*M/T`: recursively take the longest matching
block and recurse on the pieces to its left and to its right.  The fuel
`a.length + b.length` always suffices (`matchesTotalF_fuel` below). -/
def matchesTotalF : Nat → Str → Str → Nat
  | 0, _, _ => 0
  | fuel + 1, a, b =>
    let t := findLongestMatch a b
    if t.2.2 = 0 then 0
    else
      matchesTotalF fuel (a.take t.1) (b.take t.2.1) + t.2.2 +
        matchesTotalF fuel (a.drop (t.1 + t.2.2)) (b.drop (t.2.1 + t.2.2))

def matchesTotal (a b : Str) : Nat := matchesTotalF (a.length + b.length) a b

/-- A similarity as an exact fraction `(numerator, denominator)`,
denominator always positive.  `simFrac a b` is
`SequenceMatcher(None, a, b).ratio()`: `2*M/T`, and `1.0` when both
strings are empty (`difflib._calculate_ratio`). -/
def simFrac (a b : Str) : Nat × Nat :=
  if a.length + b.length = 0 then (1, 1)
  else (2 * matchesTotal a b, a.length + b.length)

/-- `x ≥ y` on fractions with positive denominators. -/
def fracGE (x y : Nat × Nat) : Bool := x.1 * y.2 ≥ y.1 * x.2

/-- `x > y` on fractions with positive denominators. -/
def fracGT (x y : Nat × Nat) : Bool := x.1 * y.2 > y.1 * x.2

def fracAdd (x y : Nat × Nat) : Nat × Nat := (x.1 * y.2 + y.1 * x.2, x.2 * y.2)

def fracHalf (x : Nat × Nat) : Nat × Nat := (x.1, 2 * x.2)

def fracDivNat (x : Nat × Nat) (k : Nat) : Nat × Nat := (x.1, x.2 * k)

/-- A product record: a Python dict from canonical field name to string,
where `dict.get(field, "")` yields `""` for absent fields, so every field
is total with default `[]`. -/
structure Record where
  brand_name : Str := []
  product_name : Str := []
  category : Str := []
  subcategory : Str := []
  price : Str := []
  image_url : Str := []
  lcbo_id : Str := []
  source : Str := []
  descriptors : Str := []
  gluten_free_score : Str := []
deriving DecidableEq, Repr

/-- `defaultdict(list)` grouping: append `v` to the bucket of `k`,
creating the bucket at the end on first sight — this reproduces Python
dict insertion order. -/
def insertBucket {α : Type} (k : Str) (v : α) : List (Str × List α) → List (Str × List α)
  | [] => [(k, [v])]
  | (k', vs) :: rest =>
    if k = k' then (k', vs ++ [v]) :: rest else (k', vs) :: insertBucket k v rest

def bucketsBy {α : Type} (key : α → Str) (l : List α) : List (Str × List α) :=
  l.foldl (fun acc p => insertBucket (key p) p acc) []

/-- Python dict assignment `m[k] = v` on an insertion-ordered mapping:
overwrite in place, else append. -/
def setKey (k : Str) (v : Nat) : List (Str × Nat) → List (Str × Nat)
  | [] => [(k, v)]
  | (k', v') :: rest => if k = k' then (k, v) :: rest else (k', v') :: setKey k v rest

/-- Python substring test `needle in hay`. -/
def isSub (needle hay : Str) : Bool :=
  (List.range (hay.length + 1)).any fun i => needle.isPrefixOf (hay.drop i)

def b2n (b : Bool) : Nat := if b then 1 else 0

def lexLt3 (x y : Nat × Nat × Nat) : Bool :=
  x.1 < y.1 ∨ (x.1 = y.1 ∧ (x.2.1 < y.2.1 ∨ (x.2.1 = y.2.1 ∧ x.2.2 < y.2.2)))

def lexLt4 (x y : Nat × Nat × Nat × Nat) : Bool :=
  x.1 < y.1 ∨ (x.1 = y.1 ∧ lexLt3 x.2 y.2)

/-- Insert `x` after every element strictly below it: combined with
`insertionSort` this is a stable ascending sort, the semantics of Python
`sorted(..., key=...)`. -/
def insertS {α : Type} (lt : α → α → Bool) (x : α) : List α → List α
  | [] => [x]
  | y :: ys => if lt y x then y :: insertS lt x ys else x :: y :: ys

def insertionSort {α : Type} (lt : α → α → Bool) : List α → List α
  | [] => []
  | x :: xs => insertS lt x (insertionSort lt xs)

/-! ## Configuration (`alcohol_data_config.py`) -/

/-- `CONFIG["similarity_threshold"] = 0.9`. -/
def similarity_threshold : Nat × Nat := (9, 10)

/-- `CONFIG["fuzzy_match_threshold"] = 0.85`. -/
def fuzzy_match_threshold : Nat × Nat := (85, 100)

/-- `CONFIG["fuzzy_match_fields"] = ["brand_name", "product_name"]`,
as record accessors. -/
def fuzzy_match_fields : List (Record → Str) := [Record.brand_name, Record.product_name]

def SUBCATEGORY_NORMALIZATIONS : List (Str × Str) := [
  (str "Gift And Sampler", str "Gifts and Samplers"),
  (str "Gift and Sampler", str "Gifts and Samplers"),
  (str "Gifts And Sampler", str "Gifts and Samplers"),
  (str "Gift & Sampler", str "Gifts and Samplers"),
  (str "Gifts & Sampler", str "Gifts and Samplers"),
  (str "Gift and Samplers", str "Gifts and Samplers"),
  (str "Gift And Samplers", str "Gifts and Samplers"),
  (str "Beer & Cider", str "Beer"),
  (str "Beer and Cider", str "Beer"),
  (str "Beer & Ciders", str "Beer"),
  (str "Beer and Ciders", str "Beer"),
  (str "Red Wine", str "Red Wines"),
  (str "White Wine", str "White Wines"),
  (str "Rose Wine", str "Rose Wines"),
  (str "Sparkling Wine", str "Sparkling Wines"),
  (str "Dessert Wine", str "Dessert Wines"),
  (str "Fortified Wine", str "Fortified Wines"),
  (str "Whisky", str "Whiskey"),
  (str "Whiskey", str "Whiskey"),
  (str "Scotch", str "Scotch Whisky"),
  (str "Scotch Whiskey", str "Scotch Whisky"),
  (str "Bourbon", str "Bourbon Whiskey"),
  (str "Bourbon Whisky", str "Bourbon Whiskey"),
  (str "Rye", str "Rye Whiskey"),
  (str "Rye Whisky", str "Rye Whiskey"),
  (str "Canadian Whisky", str "Canadian Whiskey"),
  (str "Canadian Whiskey", str "Canadian Whiskey"),
  (str "Vodka", str "Vodka"),
  (str "Flavoured Vodka", str "Flavored Vodka"),
  (str "Flavored Vodka", str "Flavored Vodka"),
  (str "Gin", str "Gin"),
  (str "London Dry Gin", str "London Dry Gin"),
  (str "Plymouth Gin", str "Plymouth Gin"),
  (str "Rum", str "Rum"),
  (str "White Rum", str "White Rum"),
  (str "Dark Rum", str "Dark Rum"),
  (str "Spiced Rum", str "Spiced Rum"),
  (str "Gold Rum", str "Gold Rum"),
  (str "Aged Rum", str "Aged Rum"),
  (str "Tequila", str "Tequila"),
  (str "Blanco Tequila", str "Blanco Tequila"),
  (str "Reposado Tequila", str "Reposado Tequila"),
  (str "Anejo Tequila", str "Anejo Tequila"),
  (str "Mezcal", str "Mezcal"),
  (str "Liqueur", str "Liqueur"),
  (str "Liqueurs", str "Liqueur"),
  (str "Cream Liqueur", str "Cream Liqueur"),
  (str "Cream Liqueurs", str "Cream Liqueur"),
  (str "Coffee Liqueur", str "Coffee Liqueur"),
  (str "Coffee Liqueurs", str "Coffee Liqueur"),
  (str "Herbal Liqueur", str "Herbal Liqueur"),
  (str "Herbal Liqueurs", str "Herbal Liqueur"),
  (str "Fruit Liqueur", str "Fruit Liqueur"),
  (str "Fruit Liqueurs", str "Fruit Liqueur"),
  (str "Brandy", str "Brandy"),
  (str "Cognac", str "Cognac"),
  (str "Armagnac", str "Armagnac"),
  (str "Pisco", str "Pisco"),
  (str "Aperitif", str "Aperitif"),
  (str "Aperitifs", str "Aperitif"),
  (str "Digestif", str "Digestif"),
  (str "Digestifs", str "Digestif"),
  (str "Vermouth", str "Vermouth"),
  (str "Bitters", str "Bitters"),
  (str "Absinthe", str "Absinthe"),
  (str "Sake", str "Sake"),
  (str "Soju", str "Soju"),
  (str "Baijiu", str "Baijiu")]

/-! ## `AlcoholDataProcessor` (`alcohol_data_processor.py`) -/

/-- `AlcoholDataProcessor.normalize_subcategory`. -/
def normalize_subcategory (subcategory : Str) : Str :=
  if subcategory = [] then []
  else
    let cleaned := pyStrip subcategory
    match SUBCATEGORY_NORMALIZATIONS.lookup cleaned with
    | some v => v
    | none =>
      match SUBCATEGORY_NORMALIZATIONS.findSome? (fun kv =>
          if fracGT (simFrac (lowerStr cleaned) (lowerStr kv.1)) (9, 10) then some kv.2
          else none) with
      | some v => v
      | none => cleaned

def apostropheChar : Char := Char.ofNat 39

def quoteChar : Char := Char.ofNat 34

def spaceChar : Char := Char.ofNat 32

def isUpperAlpha (c : Char) : Bool := 65 ≤ c.toNat && c.toNat ≤ 90

def isAlphaAscii (c : Char) : Bool := isUpperAlpha c || (97 ≤ c.toNat && c.toNat ≤ 122)

/-- Python `str.isupper()` (ASCII): at least one cased character and every
cased character uppercase. -/
def pyIsUpper (s : Str) : Bool :=
  s.any isAlphaAscii && s.all fun c => !isAlphaAscii c || isUpperAlpha c

/-- `brand[0].isupper()`; the empty case cannot occur on the call sites
(only non-empty brands are grouped). -/
def headIsUpper : Str → Bool
  | [] => false
  | c :: _ => isUpperAlpha c

/-- Number of words of `str.split()` (maximal whitespace-free runs). -/
def countRuns : List Char → Bool → Nat
  | [], _ => 0
  | c :: rest, inWord =>
    if isSpaceChar c then countRuns rest false
    else (if inWord then 0 else 1) + countRuns rest true

def wordCount (s : Str) : Nat := countRuns s false

/-- Python `brand.count("  ")`: non-overlapping double-space occurrences. -/
def countDoubleSpace : Str → Nat
  | [] => 0
  | [_] => 0
  | a :: b :: rest =>
    if a = spaceChar ∧ b = spaceChar then 1 + countDoubleSpace rest
    else countDoubleSpace (b :: rest)

/-- The `score_brand` closure inside `choose_best_brand_name`. -/
def score_brand (brand : Str) : ℤ :=
  (if brand.contains apostropheChar then (10 : ℤ) else 0) +
    (if pyIsUpper brand then (-5 : ℤ)
     else if headIsUpper brand ∧ ¬pyIsUpper brand then 5 else 0) -
    wordCount brand - countDoubleSpace brand

/-- `AlcoholDataProcessor.choose_best_brand_name`: Python
`max(..., key=...)`, which keeps the first of equally-scored candidates. -/
def choose_best_brand_name (alternatives : List Str) : Str :=
  match alternatives with
  | [] => []
  | a :: rest => rest.foldl (fun best c => if score_brand c > score_brand best then c else best) a

/-- The grouping key of `normalize_brand_alternatives`: lower-cased with
apostrophes and double quotes removed (the source's four `replace` calls
all target the ASCII characters). -/
def normKey (b : Str) : Str :=
  (lowerStr b).filter fun c => c ≠ apostropheChar ∧ c ≠ quoteChar

/-- The `brand_groups` defaultdict of `normalize_brand_alternatives`:
buckets of brand-name occurrences under their normalized key (records
with empty brand are skipped by the `if brand_name:` guard). -/
def brand_groups (products : List Record) : List (Str × List Str) :=
  (products.filterMap fun p =>
      if p.brand_name ≠ [] then some (normKey p.brand_name, p.brand_name) else none).foldl
    (fun acc kv => insertBucket kv.1 kv.2 acc) []

/-- The `brand_mapping` dict: for every group with more than one
occurrence, map each non-best alternative to the best one. -/
def brand_mapping (products : List Record) : List (Str × Str) :=
  (brand_groups products).foldl
    (fun acc kv =>
      if 1 < kv.2.length then
        acc ++ kv.2.filterMap fun alt =>
          if alt ≠ choose_best_brand_name kv.2 then some (alt, choose_best_brand_name kv.2)
          else none
      else acc)
    []

/-- `AlcoholDataProcessor.normalize_brand_alternatives`. -/
def normalize_brand_alternatives (products : List Record) : List Record :=
  products.map fun p =>
    match (brand_mapping products).lookup p.brand_name with
    | some best => { p with brand_name := best }
    | none => p

def pipeChar : Char := Char.ofNat 124

/-- The exact-duplicate key `f"{brand}|{product}"` of
`find_exact_duplicates`, or `none` when either part is empty. -/
def exactKey (p : Record) : Option Str :=
  let b := lowerStr (pyStrip p.brand_name)
  let n := lowerStr (pyStrip p.product_name)
  if b ≠ [] ∧ n ≠ [] then some (b ++ pipeChar :: n) else none

/-- `AlcoholDataProcessor.find_exact_duplicates`. -/
def find_exact_duplicates (products : List Record) : List (List Record) :=
  ((products.filterMap fun p => (exactKey p).map fun k => (k, p)).foldl
      (fun acc kv => insertBucket kv.1 kv.2 acc) []).filterMap
    fun kv => if 1 < kv.2.length then some kv.2 else none

/-- The similarity test of the fuzzy sweep: both lower-cased product names
non-empty and `SequenceMatcher.ratio() >= CONFIG["similarity_threshold"]`. -/
def simOK (p q : Record) : Bool :=
  lowerStr p.product_name ≠ [] && lowerStr q.product_name ≠ [] &&
    fracGE (simFrac (lowerStr p.product_name) (lowerStr q.product_name)) similarity_threshold

/-- The left-to-right sweep inside one brand bucket: claim every later
record similar to the current head, emit the cluster when anything was
claimed; claimed records are removed from further consideration (the
`processed` index set of the source).  Fuelled; `sweepF l.length l` never
exhausts the fuel since each step strictly shrinks the list. -/
def sweepF : Nat → List Record → List (List Record)
  | 0, _ => []
  | _ + 1, [] => []
  | fuel + 1, p :: rest =>
    let sims := rest.filter (simOK p)
    if sims.isEmpty then sweepF fuel rest
    else (p :: sims) :: sweepF fuel (rest.filter fun q => !simOK p q)

def sweep (l : List Record) : List (List Record) := sweepF l.length l

/-- `AlcoholDataProcessor.find_duplicates` with `use_exact_matching=False`:
bucket by `lower(brand_name)`, skip singleton buckets, sweep each bucket. -/
def find_duplicates (products : List Record) : List (List Record) :=
  (bucketsBy (fun p => lowerStr p.brand_name) products).flatMap fun kv =>
    if kv.2.length ≤ 1 then [] else sweep kv.2

/-- One iteration of the merge loop shared by both `merge_duplicates`
versions: fill `image_url`, `price`, `lcbo_id` of the base from `dup`,
never overwriting a non-empty base value. -/
def mergeStep (best dup : Record) : Record :=
  let b1 :=
    if best.image_url = [] ∧ dup.image_url ≠ [] then { best with image_url := dup.image_url }
    else best
  let b2 := if b1.price = [] ∧ dup.price ≠ [] then { b1 with price := dup.price } else b1
  if b2.lcbo_id = [] ∧ dup.lcbo_id ≠ [] then { b2 with lcbo_id := dup.lcbo_id } else b2

/-- The `for duplicate in sorted_group[1:]` loop of `merge_duplicates`. -/
def mergeLoop (best : Record) (rest : List Record) : Record :=
  rest.foldl mergeStep best

/-- Sort key of `AlcoholDataProcessor.merge_duplicates`:
`(not image_url, not price, len(product_name))`, Python `False < True`
encoded as `0 < 1`. -/
def keyDP (p : Record) : Nat × Nat × Nat :=
  (b2n (p.image_url = []), b2n (p.price = []), p.product_name.length)

/-- `AlcoholDataProcessor.merge_duplicates`: empty groups are skipped
(`if not duplicate_group: continue`), otherwise merge into the head of the
stable-sorted group. -/
def merge_duplicates (duplicates : List (List Record)) : List Record :=
  duplicates.filterMap fun group =>
    match insertionSort (fun p q => lexLt3 (keyDP p) (keyDP q)) group with
    | [] => none
    | best :: rest => some (mergeLoop best rest)

/-! ## `alcohol_data_integrity.py` -/

namespace DataIntegrity

/-- Sort key of the integrity script's `merge_duplicates`:
`(source != 'LCBO', not image_url, not price, len(product_name))`. -/
def keyDI (p : Record) : Nat × Nat × Nat × Nat :=
  (b2n (p.source ≠ str "LCBO"), b2n (p.image_url = []), b2n (p.price = []),
    p.product_name.length)

/-- `merge_duplicates` of `alcohol_data_integrity.py`. -/
def merge_duplicates (duplicates : List (List Record)) : List Record :=
  duplicates.filterMap fun group =>
    match insertionSort (fun p q => lexLt4 (keyDI p) (keyDI q)) group with
    | [] => none
    | best :: rest => some (mergeLoop best rest)

end DataIntegrity

/-! ## `AlcoholBackupRestorer` (`alcohol_backup_restorer.py`) -/

/-- `AlcoholBackupRestorer.calculate_similarity`. -/
def calculate_similarity (s1 s2 : Str) : Nat × Nat :=
  if s1 = [] ∨ s2 = [] then (0, 1)
  else
    let n1 := pyStrip (lowerStr s1)
    let n2 := pyStrip (lowerStr s2)
    if n1 = n2 then (1, 1) else simFrac n1 n2

/-- Average similarity over `CONFIG["fuzzy_match_fields"]`. -/
def avgScore (cur b : Record) : Nat × Nat :=
  let scores := fuzzy_match_fields.map fun f => calculate_similarity (f cur) (f b)
  if scores = [] then (0, 1) else fracDivNat (scores.foldl fracAdd (0, 1)) scores.length

/-- `AlcoholBackupRestorer.find_best_match`: scan the backup records,
keeping the first strictly-better average score among those at or above
the threshold. -/
def find_best_match (cur : Record) (backups : List Record) : Option Record × (Nat × Nat) :=
  backups.foldl
    (fun best b =>
      let avg := avgScore cur b
      if fracGT avg best.2 ∧ fracGE avg fuzzy_match_threshold then (some b, avg) else best)
    (none, (0, 1))

/-- The per-record body of `restore_from_backup`: a found match (a
non-empty dict, hence truthy) at or above the threshold restores
`gluten_free_score` and `descriptors`, each only when the backup value is
non-empty and non-blank. -/
def restoreOne (backups : List Record) (cur : Record) : Record :=
  let bm := find_best_match cur backups
  match bm.1 with
  | none => cur
  | some m =>
    if fracGE bm.2 fuzzy_match_threshold then
      let cur1 :=
        if m.gluten_free_score ≠ [] ∧ pyStrip m.gluten_free_score ≠ [] then
          { cur with gluten_free_score := m.gluten_free_score }
        else cur
      if m.descriptors ≠ [] ∧ pyStrip m.descriptors ≠ [] then
        { cur1 with descriptors := m.descriptors }
      else cur1
    else cur

/-- `AlcoholBackupRestorer.restore_from_backup`, at the record level (the
row-to-record parsing, which belongs to the schema-mapping collaborator,
is not part of the reconciliation contract). -/
def restore_from_backup (currents backups : List Record) : List Record :=
  currents.map (restoreOne backups)

/-! ## `GoogleSheetsClient.get_column_mapping` (`alcohol_sheets_client.py`) -/

/-- `header.lower().strip()` then `'_'`/`'-'` replaced by spaces. -/
def headerClean (h : Str) : Str :=
  (pyStrip (lowerStr h)).map fun c =>
    if c = Char.ofNat 95 ∨ c = Char.ofNat 45 then spaceChar else c

/-- `GoogleSheetsClient.get_column_mapping`: the ordered first-match
header rules; later headers overwrite earlier ones via dict assignment. -/
def get_column_mapping (headers : List Str) : List (Str × Nat) :=
  headers.enum.foldl
    (fun m iv =>
      let i := iv.1
      let hc := headerClean iv.2
      if isSub (str "brand") hc && (isSub (str "name") hc || hc = str "brand") then
        setKey (str "brand_name") i m
      else if isSub (str "product") hc && (isSub (str "name") hc || hc = str "product") then
        setKey (str "product_name") i m
      else if isSub (str "descriptor") hc then setKey (str "descriptors") i m
      else if isSub (str "gluten") hc && isSub (str "score") hc then
        setKey (str "gluten_free_score") i m
      else if isSub (str "gluten") hc && isSub (str "free") hc then
        setKey (str "gluten_free_score") i m
      else if isSub (str "id") hc && hc = str "id" then setKey (str "id") i m
      else if isSub (str "lcbo") hc && isSub (str "id") hc then setKey (str "lcbo_id") i m
      else if isSub (str "image") hc && isSub (str "url") hc then setKey (str "image_url") i m
      else if isSub (str "price") hc then setKey (str "price") i m
      else if isSub (str "category") hc && !isSub (str "sub") hc then setKey (str "category") i m
      else if isSub (str "subcategory") hc || (isSub (str "sub") hc && isSub (str "category") hc) then
        setKey (str "subcategory") i m
      else if isSub (str "source") hc then setKey (str "source") i m
      else m)
    []

/-! ## Specification-side helper definitions -/

/-- First non-empty string of a list, defaulting to `""`: the
specification's "copied from the first subsequent member that has a
non-empty value". -/
def firstNonEmptyD (l : List Str) : Str := ((l.find? fun s => !s.isEmpty).getD [])

/-- Specification-side description of brand consolidation, written from
the spec's words: look up the record's brand group; when the group has
more than one occurrence and the brand is not the winning form, rewrite it
to the winner. -/
def rewriteSpec (ps : List Record) (p : Record) : Record :=
  match (brand_groups ps).find? fun kv => kv.1 = normKey p.brand_name with
  | some kv =>
    if p.brand_name ≠ [] ∧ 1 < kv.2.length ∧ p.brand_name ≠ choose_best_brand_name kv.2 then
      { p with brand_name := choose_best_brand_name kv.2 }
    else p
  | none => p

/-! ## Longest-common-subsequence bound (used to settle the fuzzy-fallback
claim): a row DP computing, for every suffix of `b`, an upper bound on the
length of any common sublist. -/

/-- One DP row step: given the row for `as` (over all suffixes of `b`),
produce the row for `c :: as`. -/
def buildRow (c : Char) : Str → List Nat → List Nat
  | [], _ => [0]
  | bj :: brest, pj :: prest =>
    let rrest := buildRow c brest prest
    (if c = bj then prest.headD 0 + 1 else Nat.max pj (rrest.headD 0)) :: rrest
  | _ :: _, [] => [0]

/-- For each `j`, entry `j` bounds the common sublists of `a` and
`b.drop j`. -/
def lcsRows : Str → Str → List Nat
  | [], b => List.replicate (b.length + 1) 0
  | c :: as_, b => buildRow c b (lcsRows as_ b)

def lcsLen (a b : Str) : Nat := (lcsRows a b).headD 0

/-- Decidable arithmetic criterion: no string of length `x` (necessarily
in `[9*n1/11, 11*n1/9]`) can have `SequenceMatcher` similarity strictly
above `0.9` to two strings of lengths `n1` and `n2` whose longest common
subsequence is at most `L` (`M1`, `M2` are the matched totals; `c1`, `c2`
the least values allowed by `20*M > 9*(x+n)`; `M1 + M2 ≤ x + L` is the
sublist-overlap bound). -/
def arithOK (n1 n2 L : Nat) : Bool :=
  (List.range' (9 * n1 / 11) (11 * n1 / 9 + 1 - 9 * n1 / 11)).all fun x =>
    let c1 := 9 * (x + n1) / 20 + 1
    let c2 := 9 * (x + n2) / 20 + 1
    !(c1 ≤ n1 && c1 ≤ x && c2 ≤ n2 && c2 ≤ x && c1 + c2 ≤ x + L)

/-- One key pair is safe: equal canonical values, or too far apart for one
input to fuzzily match both.  The middle disjunct is a cheap prefilter
using `min` of the lengths (always an upper bound on a common
subsequence) before computing the exact LCS bound. -/
def pairDualOK (kv1 kv2 : Str × Str) : Bool :=
  kv1.2 == kv2.2 ||
    arithOK kv1.1.length kv2.1.length (min kv1.1.length kv2.1.length) ||
    arithOK kv1.1.length kv2.1.length (lcsLen (lowerStr kv1.1) (lowerStr kv2.1))

/-- Triangular sweep: each entry of the first list is checked against the
rest of the first list and the whole second list. -/
def rowsOK : List (Str × Str) → List (Str × Str) → Bool
  | [], _ => true
  | kv :: rest, suffix =>
    ((rest ++ suffix).all fun kv2 => pairDualOK kv kv2) && rowsOK rest suffix

/-- The whole-table check: every unordered pair of distinct entries is
safe. -/
def triCheck : List (Str × Str) → Bool
  | [] => true
  | kv :: rest => (rest.all fun kv2 => pairDualOK kv kv2) && triCheck rest

/-- For each canonical value that is not itself a table key, a witness
key whose canonical value it is and whose similarity to it exceeds `0.9`
(the value `"Beer"` is handled by direct evaluation instead). -/
def valueCerts : List (Str × (Str × Str)) := [
  (str "Bourbon Whiskey", (str "Bourbon Whisky", str "Bourbon Whiskey")),
  (str "Dessert Wines", (str "Dessert Wine", str "Dessert Wines")),
  (str "Fortified Wines", (str "Fortified Wine", str "Fortified Wines")),
  (str "Gifts and Samplers", (str "Gifts And Sampler", str "Gifts and Samplers")),
  (str "Red Wines", (str "Red Wine", str "Red Wines")),
  (str "Rose Wines", (str "Rose Wine", str "Rose Wines")),
  (str "Rye Whiskey", (str "Rye Whisky", str "Rye Whiskey")),
  (str "Scotch Whisky", (str "Scotch Whiskey", str "Scotch Whisky")),
  (str "Sparkling Wines", (str "Sparkling Wine", str "Sparkling Wines")),
  (str "White Wines", (str "White Wine", str "White Wines"))]

end Alcohol

/-! # Generic lemmas about the grouping fold -/

namespace Alcohol

theorem insertBucket_mem_prop {α : Type} {P : Str → α → Prop} (k : Str) (v : α) :
    ∀ bs : List (Str × List α), (∀ kv ∈ bs, ∀ x ∈ kv.2, P kv.1 x) → P k v →
      ∀ kv ∈ insertBucket k v bs, ∀ x ∈ kv.2, P kv.1 x := by
  intro bs
  induction bs with
  | nil =>
    intro _ hP kv hkv x hx
    simp only [insertBucket, List.mem_singleton] at hkv
    subst hkv
    simp only [List.mem_singleton] at hx
    subst hx
    exact hP
  | cons b rest ih =>
    obtain ⟨k', vs⟩ := b
    intro hbs hP kv hkv x hx
    simp only [insertBucket] at hkv
    split at hkv
    · next heq =>
      rcases List.mem_cons.1 hkv with h | h
      · subst h
        rcases List.mem_append.1 hx with h' | h'
        · exact hbs (k', vs) (List.mem_cons_self _ _) x h'
        · simp only [List.mem_singleton] at h'
          subst h'
          exact heq ▸ hP
      · exact hbs kv (List.mem_cons_of_mem _ h) x hx
    · rcases List.mem_cons.1 hkv with h | h
      · subst h
        exact hbs (k', vs) (List.mem_cons_self _ _) x hx
      · exact ih (fun kv h => hbs kv (List.mem_cons_of_mem _ h)) hP kv h x hx

theorem foldl_insert_mem_prop {α : Type} {P : Str → α → Prop} :
    ∀ (l : List (Str × α)) (acc : List (Str × List α)),
      (∀ kv ∈ acc, ∀ x ∈ kv.2, P kv.1 x) → (∀ p ∈ l, P p.1 p.2) →
      ∀ kv ∈ l.foldl (fun a p => insertBucket p.1 p.2 a) acc, ∀ x ∈ kv.2, P kv.1 x := by
  intro l
  induction l with
  | nil => intro acc hacc _ kv hkv; exact hacc kv hkv
  | cons p rest ih =>
    intro acc hacc hl kv hkv
    exact ih (insertBucket p.1 p.2 acc)
      (insertBucket_mem_prop p.1 p.2 acc hacc (hl p (List.mem_cons_self _ _)))
      (fun q hq => hl q (List.mem_cons_of_mem _ hq)) kv hkv

theorem insertBucket_ne_nil {α : Type} (k : Str) (v : α) :
    ∀ bs : List (Str × List α), (∀ kv ∈ bs, kv.2 ≠ []) →
      ∀ kv ∈ insertBucket k v bs, kv.2 ≠ [] := by
  intro bs
  induction bs with
  | nil =>
    intro _ kv hkv
    simp only [insertBucket, List.mem_singleton] at hkv
    subst hkv
    simp
  | cons b rest ih =>
    obtain ⟨k', vs⟩ := b
    intro hbs kv hkv
    simp only [insertBucket] at hkv
    split at hkv
    · rcases List.mem_cons.1 hkv with h | h
      · subst h; simp
      · exact hbs kv (List.mem_cons_of_mem _ h)
    · rcases List.mem_cons.1 hkv with h | h
      · subst h; exact hbs (k', vs) (List.mem_cons_self _ _)
      · exact ih (fun kv h => hbs kv (List.mem_cons_of_mem _ h)) kv h

theorem foldl_insert_ne_nil {α : Type} :
    ∀ (l : List (Str × α)) (acc : List (Str × List α)),
      (∀ kv ∈ acc, kv.2 ≠ []) →
      ∀ kv ∈ l.foldl (fun a p => insertBucket p.1 p.2 a) acc, kv.2 ≠ [] := by
  intro l
  induction l with
  | nil => intro acc hacc kv hkv; exact hacc kv hkv
  | cons p rest ih =>
    intro acc hacc kv hkv
    exact ih (insertBucket p.1 p.2 acc) (insertBucket_ne_nil p.1 p.2 acc hacc) kv hkv

theorem insertBucket_join_perm {α : Type} (k : Str) (v : α) :
    ∀ bs : List (Str × List α),
      ((insertBucket k v bs).flatMap (·.2)).Perm (v :: bs.flatMap (·.2)) := by
  intro bs
  induction bs with
  | nil => simp [insertBucket]
  | cons b rest ih =>
    obtain ⟨k', vs⟩ := b
    simp only [insertBucket]
    split
    · simp only [List.flatMap_cons, List.append_assoc, List.singleton_append]
      exact List.perm_middle
    · simp only [List.flatMap_cons]
      exact (ih.append_left vs).trans List.perm_middle

theorem foldl_insert_join_perm {α : Type} :
    ∀ (l : List (Str × α)) (acc : List (Str × List α)),
      ((l.foldl (fun a p => insertBucket p.1 p.2 a) acc).flatMap (·.2)).Perm
        (l.map (·.2) ++ acc.flatMap (·.2)) := by
  intro l
  induction l with
  | nil => intro acc; simp
  | cons p rest ih =>
    intro acc
    simp only [List.foldl_cons, List.map_cons, List.cons_append]
    exact ((ih _).trans ((insertBucket_join_perm p.1 p.2 acc).append_left _)).trans
      List.perm_middle

theorem sublist_flatMap {α β : Type} (f : α → List β) :
    ∀ {l₁ l₂ : List α}, l₁.Sublist l₂ → (l₁.flatMap f).Sublist (l₂.flatMap f) := by
  intro l₁ l₂ h
  induction h with
  | slnil => simp
  | cons a _ ih =>
    simp only [List.flatMap_cons]
    exact ih.trans (List.sublist_append_right _ _)
  | cons₂ a _ ih =>
    simp only [List.flatMap_cons]
    exact ih.append_left _

end Alcohol

/-! # Claim C4: exact-mode dedup partition -/

namespace Alcohol

theorem groups_filterMap_eq {α : Type} (bs : List (Str × List α)) :
    bs.filterMap (fun kv => if 1 < kv.2.length then some kv.2 else none) =
      (bs.filter fun kv => 1 < kv.2.length).map (·.2) := by
  induction bs with
  | nil => rfl
  | cons kv rest ih =>
    by_cases h : 1 < kv.2.length <;>
      simp [List.filterMap_cons, List.filter_cons, h, ih]

theorem keyed_map_snd (ps : List Record) :
    ((ps.filterMap fun p => (exactKey p).map fun k => (k, p)).map (·.2)) =
      ps.filter fun p => (exactKey p).isSome := by
  induction ps with
  | nil => rfl
  | cons p rest ih =>
    cases h : exactKey p <;>
      simp [List.filterMap_cons, List.filter_cons, h, ih]

/-- Claim C4: exact-mode duplicate detection keys records by
`lower(trim(brand_name)) + "|" + lower(trim(product_name))`; every
returned cluster has at least two records all sharing one key; records
with blank brand or product never appear; the clusters' members are a
sub-multiset of the input (no record in two clusters); and the Smirnoff
scenario yields exactly one cluster holding the first two records. -/
theorem C4_exact_mode_partition (ps : List Record) :
    (∀ c ∈ find_exact_duplicates ps, 2 ≤ c.length ∧
      (∃ k, ∀ r ∈ c, exactKey r = some k) ∧
      ∀ r ∈ c, pyStrip r.brand_name ≠ [] ∧ pyStrip r.product_name ≠ []) ∧
    ((find_exact_duplicates ps).flatMap id).Subperm ps ∧
    find_exact_duplicates
        [{ brand_name := str "Smirnoff", product_name := str "Vodka 750ml" },
         { brand_name := str "SMIRNOFF", product_name := str "vodka 750ml" },
         { brand_name := str "Smirnoff", product_name := str "Vodka 1L" }] =
      [[{ brand_name := str "Smirnoff", product_name := str "Vodka 750ml" },
        { brand_name := str "SMIRNOFF", product_name := str "vodka 750ml" }]] := by
  refine ⟨?_, ?_, by decide⟩
  · intro c hc
    rw [find_exact_duplicates] at hc
    obtain ⟨kv, hkv, hsome⟩ := List.mem_filterMap.1 hc
    have hlen : 1 < kv.2.length ∧ kv.2 = c := by
      by_cases h : 1 < kv.2.length <;> simp [h] at hsome
      exact ⟨h, hsome⟩
    obtain ⟨hlen, rfl⟩ := hlen
    have hkeys : ∀ r ∈ kv.2, exactKey r = some kv.1 := by
      intro r hr
      refine foldl_insert_mem_prop (P := fun k r => exactKey r = some k) _ [] (by simp)
        ?_ kv hkv r hr
      intro p hp
      obtain ⟨q, _, hq⟩ := List.mem_filterMap.1 hp
      obtain ⟨k0, hk0, rfl⟩ := Option.map_eq_some'.1 hq
      exact hk0
    refine ⟨hlen, ⟨kv.1, hkeys⟩, ?_⟩
    intro r hr
    have h := hkeys r hr
    rw [exactKey] at h
    split at h
    · next hcond =>
      constructor
      · intro hnil; exact hcond.1 (by simp [lowerStr, hnil])
      · intro hnil; exact hcond.2 (by simp [lowerStr, hnil])
    · exact absurd h (by simp)
  · rw [find_exact_duplicates, groups_filterMap_eq]
    have h1 : (((((ps.filterMap fun p => (exactKey p).map fun k => (k, p))).foldl
        (fun acc kv => insertBucket kv.1 kv.2 acc) []).filter
          fun kv => 1 < kv.2.length).map (·.2)).flatMap id |>.Sublist
        ((((ps.filterMap fun p => (exactKey p).map fun k => (k, p))).foldl
          (fun acc kv => insertBucket kv.1 kv.2 acc) []).flatMap (·.2)) := by
      have hsub : ((((ps.filterMap fun p => (exactKey p).map fun k => (k, p))).foldl
          (fun acc kv => insertBucket kv.1 kv.2 acc) []).filter
            fun kv => 1 < kv.2.length).Sublist
          (((ps.filterMap fun p => (exactKey p).map fun k => (k, p))).foldl
            (fun acc kv => insertBucket kv.1 kv.2 acc) []) := List.filter_sublist _
      have := sublist_flatMap (fun kv : Str × List Record => kv.2) hsub
      simpa [List.flatMap_map, Function.comp] using this
    have h2 := foldl_insert_join_perm
      (ps.filterMap fun p => (exactKey p).map fun k => (k, p)) []
    have h3 : ((ps.filterMap fun p => (exactKey p).map fun k => (k, p)).map (·.2)).Sublist ps := by
      rw [keyed_map_snd]; exact List.filter_sublist ps
    refine (h1.subperm.trans (h2.subperm)).trans ?_
    simpa using h3.subperm

/-- Claim C4 witness: the universal part applied to the Smirnoff scenario
input and its unique cluster. -/
theorem C4_exact_mode_partition_witness :
    2 ≤ ([{ brand_name := str "Smirnoff", product_name := str "Vodka 750ml" },
          { brand_name := str "SMIRNOFF", product_name := str "vodka 750ml" }] :
            List Record).length := by
  have h := (C4_exact_mode_partition
    [{ brand_name := str "Smirnoff", product_name := str "Vodka 750ml" },
     { brand_name := str "SMIRNOFF", product_name := str "vodka 750ml" },
     { brand_name := str "Smirnoff", product_name := str "Vodka 1L" }])
  exact (h.1 _ (by rw [h.2.2]; exact List.mem_singleton.2 rfl)).1

end Alcohol

/-! # Claims C10, C1, C9 -/

namespace Alcohol

set_option maxRecDepth 4000 in
/-- Claim C10: in fuzzy mode two records with empty `brand_name` share the
bucket keyed by the empty brand and, their product names being similar at
or above the threshold, are returned together in one duplicate cluster. -/
theorem C10_empty_brand_fuzzy_cluster :
    find_duplicates
        [{ product_name := str "Vodka 750ml" }, { product_name := str "Vodka 750m" }] =
      [[{ product_name := str "Vodka 750ml" }, { product_name := str "Vodka 750m" }]] ∧
    ({ product_name := str "Vodka 750ml" } : Record).brand_name = [] ∧
    ({ product_name := str "Vodka 750m" } : Record).brand_name = [] ∧
    fracGE
      (simFrac (lowerStr (str "Vodka 750ml")) (lowerStr (str "Vodka 750m")))
      similarity_threshold = true := by
  refine ⟨by decide, rfl, rfl, by decide⟩

/-- Claim C1: evaluating the integrity script's `merge_duplicates` on a
cluster tied on source, image and price, the record with the SHORTER
product name becomes the base — the ascending sort on
`len(product_name)` contradicts the claimed (and commented) preference
for the longer name. -/
theorem C1_merge_base_is_shorter_name :
    (DataIntegrity.merge_duplicates
        [[{ brand_name := str "Absolut", product_name := str "Vodka Premium",
            source := str "LCBO" },
          { brand_name := str "Absolut", product_name := str "Vodka",
            source := str "LCBO" }]]).map Record.product_name = [str "Vodka"] := by
  decide

/-- Claim C9 counterexample: neither claimed failure is signalled — the
mapping built from an empty header row is an ordinary empty mapping, and
an empty duplicate cluster is silently skipped by the merge; both
functions contain no raise path at all. -/
theorem C9_no_failure_signalled :
    get_column_mapping [] = [] ∧ merge_duplicates [[]] = [] := ⟨rfl, rfl⟩

/-- Claim C9 amended: an empty header row yields an empty Field Index
without raising, and an empty cluster contributes nothing to the merge
output instead of signalling a violation. -/
theorem C9_empty_inputs_absorbed :
    get_column_mapping [] = [] ∧
    ∀ gs : List (List Record), merge_duplicates ([] :: gs) = merge_duplicates gs :=
  ⟨rfl, fun _ => rfl⟩

end Alcohol

/-! # Claim C5: Record Merger field provenance -/

namespace Alcohol

theorem insertS_perm {α : Type} (lt : α → α → Bool) (x : α) :
    ∀ l : List α, (insertS lt x l).Perm (x :: l) := by
  intro l
  induction l with
  | nil => exact List.Perm.refl _
  | cons y ys ih =>
    simp only [insertS]
    split
    · exact (ih.cons y).trans (List.Perm.swap x y ys)
    · exact List.Perm.refl _

theorem insertionSort_perm {α : Type} (lt : α → α → Bool) :
    ∀ l : List α, (insertionSort lt l).Perm l := by
  intro l
  induction l with
  | nil => exact List.Perm.refl _
  | cons x xs ih => exact (insertS_perm lt x _).trans (ih.cons x)

theorem mergeStep_frame (b d : Record) :
    (mergeStep b d).brand_name = b.brand_name ∧
    (mergeStep b d).product_name = b.product_name ∧
    (mergeStep b d).category = b.category ∧
    (mergeStep b d).subcategory = b.subcategory ∧
    (mergeStep b d).source = b.source ∧
    (mergeStep b d).descriptors = b.descriptors ∧
    (mergeStep b d).gluten_free_score = b.gluten_free_score := by
  simp only [mergeStep]
  split <;> split <;> split <;> simp

theorem mergeStep_image (b d : Record) :
    (mergeStep b d).image_url =
      if b.image_url = [] ∧ d.image_url ≠ [] then d.image_url else b.image_url := by
  simp only [mergeStep]
  split <;> split <;> split <;> simp_all

theorem mergeStep_price (b d : Record) :
    (mergeStep b d).price =
      if b.price = [] ∧ d.price ≠ [] then d.price else b.price := by
  simp only [mergeStep]
  split <;> split <;> split <;> simp_all

theorem mergeStep_lcbo (b d : Record) :
    (mergeStep b d).lcbo_id =
      if b.lcbo_id = [] ∧ d.lcbo_id ≠ [] then d.lcbo_id else b.lcbo_id := by
  simp only [mergeStep]
  split <;> split <;> split <;> simp_all

theorem firstNonEmptyD_cons (s : Str) (l : List Str) :
    firstNonEmptyD (s :: l) = if s.isEmpty then firstNonEmptyD l else s := by
  simp only [firstNonEmptyD, List.find?_cons]
  cases h : s.isEmpty <;> simp [h]

theorem mergeLoop_frame : ∀ (rest : List Record) (b : Record),
    (mergeLoop b rest).brand_name = b.brand_name ∧
    (mergeLoop b rest).product_name = b.product_name ∧
    (mergeLoop b rest).category = b.category ∧
    (mergeLoop b rest).subcategory = b.subcategory ∧
    (mergeLoop b rest).source = b.source ∧
    (mergeLoop b rest).descriptors = b.descriptors ∧
    (mergeLoop b rest).gluten_free_score = b.gluten_free_score := by
  intro rest
  induction rest with
  | nil => intro b; exact ⟨rfl, rfl, rfl, rfl, rfl, rfl, rfl⟩
  | cons d rest ih =>
    intro b
    have hstep := mergeStep_frame b d
    have hih := ih (mergeStep b d)
    simp only [mergeLoop, List.foldl_cons] at *
    exact ⟨hih.1.trans hstep.1, hih.2.1.trans hstep.2.1, hih.2.2.1.trans hstep.2.2.1,
      hih.2.2.2.1.trans hstep.2.2.2.1, hih.2.2.2.2.1.trans hstep.2.2.2.2.1,
      hih.2.2.2.2.2.1.trans hstep.2.2.2.2.2.1, hih.2.2.2.2.2.2.trans hstep.2.2.2.2.2.2⟩

theorem mergeLoop_image : ∀ (rest : List Record) (b : Record),
    (mergeLoop b rest).image_url =
      if b.image_url = [] then firstNonEmptyD (rest.map Record.image_url)
      else b.image_url := by
  intro rest
  induction rest with
  | nil =>
    intro b
    by_cases h : b.image_url = [] <;> simp [mergeLoop, firstNonEmptyD, h]
  | cons d rest ih =>
    intro b
    simp only [mergeLoop, List.foldl_cons] at *
    rw [ih (mergeStep b d), mergeStep_image, List.map_cons, firstNonEmptyD_cons]
    by_cases hb : b.image_url = []
    · by_cases hd : d.image_url = []
      · simp [hb, hd, List.isEmpty_iff]
      · simp [hb, hd, List.isEmpty_iff]
    · simp [hb]

theorem mergeLoop_price : ∀ (rest : List Record) (b : Record),
    (mergeLoop b rest).price =
      if b.price = [] then firstNonEmptyD (rest.map Record.price) else b.price := by
  intro rest
  induction rest with
  | nil =>
    intro b
    by_cases h : b.price = [] <;> simp [mergeLoop, firstNonEmptyD, h]
  | cons d rest ih =>
    intro b
    simp only [mergeLoop, List.foldl_cons] at *
    rw [ih (mergeStep b d), mergeStep_price, List.map_cons, firstNonEmptyD_cons]
    by_cases hb : b.price = []
    · by_cases hd : d.price = []
      · simp [hb, hd, List.isEmpty_iff]
      · simp [hb, hd, List.isEmpty_iff]
    · simp [hb]

theorem mergeLoop_lcbo : ∀ (rest : List Record) (b : Record),
    (mergeLoop b rest).lcbo_id =
      if b.lcbo_id = [] then firstNonEmptyD (rest.map Record.lcbo_id) else b.lcbo_id := by
  intro rest
  induction rest with
  | nil =>
    intro b
    by_cases h : b.lcbo_id = [] <;> simp [mergeLoop, firstNonEmptyD, h]
  | cons d rest ih =>
    intro b
    simp only [mergeLoop, List.foldl_cons] at *
    rw [ih (mergeStep b d), mergeStep_lcbo, List.map_cons, firstNonEmptyD_cons]
    by_cases hb : b.lcbo_id = []
    · by_cases hd : d.lcbo_id = []
      · simp [hb, hd, List.isEmpty_iff]
      · simp [hb, hd, List.isEmpty_iff]
    · simp [hb]

theorem firstNonEmptyD_ne_nil {x : Str} :
    ∀ {l : List Str}, x ∈ l → x ≠ [] → firstNonEmptyD l ≠ [] := by
  intro l
  induction l with
  | nil => intro h; cases h
  | cons s t ih =>
    intro hx hne
    rw [firstNonEmptyD_cons]
    cases hs : s.isEmpty with
    | false =>
      have hs' : s ≠ [] := fun h => by simp [h] at hs
      simpa using hs'
    | true =>
      simp only [if_pos rfl]
      rcases List.mem_cons.1 hx with h | h
      · subst h
        exact absurd (List.isEmpty_iff.1 hs) hne
      · exact ih h hne

end Alcohol

namespace Alcohol

/-- Claim C5: for every non-empty cluster the merged record's
`brand_name`, `product_name`, `category` and `subcategory` are the base
record's values; `image_url`, `price` and `lcbo_id` are the base's own
non-empty values or else the first subsequent member's non-empty value in
the (sorted) cluster order, never overwriting the base; and whenever any
member has a non-empty `image_url`, so does the merged record. -/
theorem C5_merge_field_provenance (group : List Record) (h : group ≠ []) :
    ∃ base rest,
      insertionSort (fun p q => lexLt3 (keyDP p) (keyDP q)) group = base :: rest ∧
      merge_duplicates [group] = [mergeLoop base rest] ∧
      (mergeLoop base rest).brand_name = base.brand_name ∧
      (mergeLoop base rest).product_name = base.product_name ∧
      (mergeLoop base rest).category = base.category ∧
      (mergeLoop base rest).subcategory = base.subcategory ∧
      (mergeLoop base rest).image_url =
        (if base.image_url = [] then firstNonEmptyD (rest.map Record.image_url)
         else base.image_url) ∧
      (mergeLoop base rest).price =
        (if base.price = [] then firstNonEmptyD (rest.map Record.price) else base.price) ∧
      (mergeLoop base rest).lcbo_id =
        (if base.lcbo_id = [] then firstNonEmptyD (rest.map Record.lcbo_id)
         else base.lcbo_id) ∧
      ((∃ r ∈ group, r.image_url ≠ []) → (mergeLoop base rest).image_url ≠ []) := by
  have hperm := insertionSort_perm (fun p q => lexLt3 (keyDP p) (keyDP q)) group
  cases hsort : insertionSort (fun p q => lexLt3 (keyDP p) (keyDP q)) group with
  | nil =>
    rw [hsort] at hperm
    exact absurd hperm.symm.eq_nil h
  | cons base rest =>
    rw [hsort] at hperm
    refine ⟨base, rest, rfl, ?_, (mergeLoop_frame rest base).1,
      (mergeLoop_frame rest base).2.1, (mergeLoop_frame rest base).2.2.1,
      (mergeLoop_frame rest base).2.2.2.1, mergeLoop_image rest base,
      mergeLoop_price rest base, mergeLoop_lcbo rest base, ?_⟩
    · simp [merge_duplicates, hsort]
    · rintro ⟨r, hr, hne⟩
      have hr' : r ∈ base :: rest := hperm.symm.subset hr
      rw [mergeLoop_image]
      by_cases hb : base.image_url = []
      · rcases List.mem_cons.1 hr' with rfl | hmem
        · exact absurd hb hne
        · rw [if_pos hb]
          exact firstNonEmptyD_ne_nil (List.mem_map_of_mem Record.image_url hmem) hne
      · rwa [if_neg hb]

/-- Claim C5 witness: the theorem applied to a concrete two-record
cluster where only the non-base member carries the image URL. -/
theorem C5_merge_field_provenance_witness :
    ∃ m, merge_duplicates
        [[{ product_name := str "Vodka" },
          { product_name := str "Vodka Blue", image_url := str "http://img" }]] = [m] ∧
      m.image_url ≠ [] := by
  obtain ⟨base, rest, hsort, hmerge, _, _, _, _, _, _, _, hloss⟩ :=
    C5_merge_field_provenance
      [{ product_name := str "Vodka" },
       { product_name := str "Vodka Blue", image_url := str "http://img" }] (by decide)
  exact ⟨mergeLoop base rest, hmerge,
    hloss ⟨{ product_name := str "Vodka Blue", image_url := str "http://img" },
      by decide, by decide⟩⟩

end Alcohol

/-! # Claim C2: Cross-Dataset Reconciler -/

namespace Alcohol

theorem fracGE_iff (x y : Nat × Nat) : fracGE x y = true ↔ y.1 * x.2 ≤ x.1 * y.2 := by
  simp [fracGE]

theorem fracGT_iff (x y : Nat × Nat) : fracGT x y = true ↔ y.1 * x.2 < x.1 * y.2 := by
  simp [fracGT]

theorem fracGE_of_not_GT {x y : Nat × Nat} (h : ¬fracGT x y = true) : fracGE y x = true := by
  rw [fracGT_iff] at h
  rw [fracGE_iff]
  omega

theorem fracGE_of_GT {x y : Nat × Nat} (h : fracGT x y = true) : fracGE x y = true := by
  rw [fracGT_iff] at h
  rw [fracGE_iff]
  omega

theorem fracGE_trans {x y z : Nat × Nat} (hy : 0 < y.2)
    (h1 : fracGE x y = true) (h2 : fracGE y z = true) : fracGE x z = true := by
  rw [fracGE_iff] at h1 h2 ⊢
  have step1 : z.1 * x.2 * y.2 ≤ y.1 * z.2 * x.2 := by
    calc z.1 * x.2 * y.2 = z.1 * y.2 * x.2 := by ring
      _ ≤ y.1 * z.2 * x.2 := Nat.mul_le_mul_right _ h2
  have step2 : y.1 * z.2 * x.2 ≤ x.1 * z.2 * y.2 := by
    calc y.1 * z.2 * x.2 = y.1 * x.2 * z.2 := by ring
      _ ≤ x.1 * y.2 * z.2 := Nat.mul_le_mul_right _ h1
      _ = x.1 * z.2 * y.2 := by ring
  exact Nat.le_of_mul_le_mul_right (le_trans step1 step2) hy

theorem fracGT_of_GE_of_GT {x y z : Nat × Nat} (hx : 0 < x.2) (hy : 0 < y.2)
    (h1 : fracGE x y = true) (h2 : fracGT y z = true) : fracGT x z = true := by
  rw [fracGE_iff] at h1
  rw [fracGT_iff] at h2 ⊢
  have chain : z.1 * x.2 * y.2 < x.1 * z.2 * y.2 :=
    calc z.1 * x.2 * y.2 = z.1 * y.2 * x.2 := by ring
      _ < y.1 * z.2 * x.2 := mul_lt_mul_of_pos_right h2 hx
      _ = y.1 * x.2 * z.2 := by ring
      _ ≤ x.1 * y.2 * z.2 := Nat.mul_le_mul_right _ h1
      _ = x.1 * z.2 * y.2 := by ring
  exact lt_of_mul_lt_mul_right chain (Nat.zero_le _)

theorem fracGT_of_GT_of_GE {x y z : Nat × Nat} (hy : 0 < y.2) (hz : 0 < z.2)
    (h1 : fracGT x y = true) (h2 : fracGE y z = true) : fracGT x z = true := by
  rw [fracGE_iff] at h2
  rw [fracGT_iff] at h1 ⊢
  have chain : z.1 * x.2 * y.2 < x.1 * z.2 * y.2 :=
    calc z.1 * x.2 * y.2 = z.1 * y.2 * x.2 := by ring
      _ ≤ y.1 * z.2 * x.2 := Nat.mul_le_mul_right _ h2
      _ = y.1 * x.2 * z.2 := by ring
      _ < x.1 * y.2 * z.2 := mul_lt_mul_of_pos_right h1 hz
      _ = x.1 * z.2 * y.2 := by ring
  exact lt_of_mul_lt_mul_right chain (Nat.zero_le _)

end Alcohol

namespace Alcohol

theorem calculate_similarity_den_pos (s1 s2 : Str) : 0 < (calculate_similarity s1 s2).2 := by
  rw [calculate_similarity]
  split
  · simp
  · next h =>
    dsimp only
    split
    · simp
    · rw [simFrac]
      split
      · simp
      · next hT => simpa using Nat.pos_of_ne_zero hT

theorem avgScore_den_pos (cur b : Record) : 0 < (avgScore cur b).2 := by
  have h1 := calculate_similarity_den_pos cur.brand_name b.brand_name
  have h2 := calculate_similarity_den_pos cur.product_name b.product_name
  simp only [avgScore, fuzzy_match_fields, List.map_cons, List.map_nil, List.foldl_cons,
    List.foldl_nil, fracAdd, fracDivNat, List.length_cons, List.length_nil]
  split
  · next hcontra => simp at hcontra
  · positivity

/-- The fold step of `find_best_match`. -/
theorem fbm_unfold (cur : Record) (backups : List Record) :
    find_best_match cur backups =
      backups.foldl
        (fun best b =>
          if fracGT (avgScore cur b) best.2 ∧ fracGE (avgScore cur b) fuzzy_match_threshold
          then (some b, avgScore cur b) else best)
        (none, (0, 1)) := rfl

theorem fbm_some_inv (cur : Record) :
    ∀ (l : List Record) (acc : Option Record × (Nat × Nat)),
      (∀ m, acc.1 = some m → acc.2 = avgScore cur m ∧
        fracGE acc.2 fuzzy_match_threshold = true ∧ fracGT acc.2 (0, 1) = true) →
      (acc.1 = none → acc.2 = (0, 1)) →
      ∀ m, (l.foldl
          (fun best b =>
            if fracGT (avgScore cur b) best.2 ∧ fracGE (avgScore cur b) fuzzy_match_threshold
            then (some b, avgScore cur b) else best) acc).1 = some m →
        (l.foldl
          (fun best b =>
            if fracGT (avgScore cur b) best.2 ∧ fracGE (avgScore cur b) fuzzy_match_threshold
            then (some b, avgScore cur b) else best) acc).2 = avgScore cur m ∧
        fracGE (l.foldl
          (fun best b =>
            if fracGT (avgScore cur b) best.2 ∧ fracGE (avgScore cur b) fuzzy_match_threshold
            then (some b, avgScore cur b) else best) acc).2 fuzzy_match_threshold = true ∧
        fracGT (l.foldl
          (fun best b =>
            if fracGT (avgScore cur b) best.2 ∧ fracGE (avgScore cur b) fuzzy_match_threshold
            then (some b, avgScore cur b) else best) acc).2 (0, 1) = true := by
  intro l
  induction l with
  | nil => intro acc hsome _ m hm; exact hsome m hm
  | cons b rest ih =>
    intro acc hsome hnone m
    simp only [List.foldl_cons]
    by_cases hc : fracGT (avgScore cur b) acc.2 ∧
        fracGE (avgScore cur b) fuzzy_match_threshold
    · rw [if_pos hc]
      refine ih _ ?_ (fun h => Option.noConfusion h) m
      intro m' hm'
      have hb : b = m' := by simpa using hm'
      subst hb
      refine ⟨rfl, hc.2, ?_⟩
      rcases hacc : acc.1 with _ | m0
      · rw [hnone hacc] at hc
        exact hc.1
      · have h0 := hsome m0 hacc
        have hpos : 0 < acc.2.2 := h0.1 ▸ avgScore_den_pos cur m0
        exact fracGT_of_GT_of_GE hpos (by simp) hc.1 (fracGE_of_GT h0.2.2)
    · rw [if_neg hc]
      exact ih acc hsome hnone m

theorem fbm_mem (cur : Record) :
    ∀ (l : List Record) (acc : Option Record × (Nat × Nat)) (m : Record),
      (l.foldl
          (fun best b =>
            if fracGT (avgScore cur b) best.2 ∧ fracGE (avgScore cur b) fuzzy_match_threshold
            then (some b, avgScore cur b) else best) acc).1 = some m →
      acc.1 = some m ∨ m ∈ l := by
  intro l
  induction l with
  | nil => intro acc m hm; exact Or.inl hm
  | cons b rest ih =>
    intro acc m hm
    simp only [List.foldl_cons] at hm
    by_cases hc : fracGT (avgScore cur b) acc.2 ∧
        fracGE (avgScore cur b) fuzzy_match_threshold
    · rw [if_pos hc] at hm
      rcases ih _ m hm with h | h
      · simp only [Option.some_inj] at h
        exact Or.inr (h ▸ List.mem_cons_self b rest)
      · exact Or.inr (List.mem_cons_of_mem b h)
    · rw [if_neg hc] at hm
      rcases ih acc m hm with h | h
      · exact Or.inl h
      · exact Or.inr (List.mem_cons_of_mem b h)

theorem fbm_score_mono (cur : Record) :
    ∀ (l : List Record) (acc : Option Record × (Nat × Nat)), 0 < acc.2.2 →
      fracGE (l.foldl
          (fun best b =>
            if fracGT (avgScore cur b) best.2 ∧ fracGE (avgScore cur b) fuzzy_match_threshold
            then (some b, avgScore cur b) else best) acc).2 acc.2 = true ∧
      0 < (l.foldl
          (fun best b =>
            if fracGT (avgScore cur b) best.2 ∧ fracGE (avgScore cur b) fuzzy_match_threshold
            then (some b, avgScore cur b) else best) acc).2.2 := by
  intro l
  induction l with
  | nil =>
    intro acc hpos
    simp only [List.foldl_nil]
    exact ⟨by rw [fracGE_iff], hpos⟩
  | cons b rest ih =>
    intro acc hpos
    simp only [List.foldl_cons]
    by_cases hc : fracGT (avgScore cur b) acc.2 ∧
        fracGE (avgScore cur b) fuzzy_match_threshold
    · rw [if_pos hc]
      obtain ⟨hge, hpos'⟩ := ih (some b, avgScore cur b) (avgScore_den_pos cur b)
      exact ⟨fracGE_trans (avgScore_den_pos cur b) hge (fracGE_of_GT hc.1), hpos'⟩
    · rw [if_neg hc]
      exact ih acc hpos

theorem fbm_not_beaten (cur : Record) :
    ∀ (l : List Record) (acc : Option Record × (Nat × Nat)), 0 < acc.2.2 →
      ∀ b ∈ l, fracGE (avgScore cur b) fuzzy_match_threshold = true →
        fracGE (l.foldl
            (fun best b =>
              if fracGT (avgScore cur b) best.2 ∧
                fracGE (avgScore cur b) fuzzy_match_threshold
              then (some b, avgScore cur b) else best) acc).2 (avgScore cur b) = true := by
  intro l
  induction l with
  | nil => intro _ _ b hb; cases hb
  | cons c rest ih =>
    intro acc hpos b hb hbθ
    simp only [List.foldl_cons]
    rcases List.mem_cons.1 hb with rfl | hbmem
    · by_cases hc : fracGT (avgScore cur b) acc.2 ∧
          fracGE (avgScore cur b) fuzzy_match_threshold
      · rw [if_pos hc]
        exact (fbm_score_mono cur rest _ (avgScore_den_pos cur b)).1
      · rw [if_neg hc]
        have hnot : ¬fracGT (avgScore cur b) acc.2 = true := fun h => hc ⟨h, hbθ⟩
        have h1 : fracGE acc.2 (avgScore cur b) = true := fracGE_of_not_GT hnot
        exact fracGE_trans hpos ((fbm_score_mono cur rest acc hpos).1) h1
    · by_cases hc : fracGT (avgScore cur c) acc.2 ∧
          fracGE (avgScore cur c) fuzzy_match_threshold
      · rw [if_pos hc]
        exact ih _ (avgScore_den_pos cur c) b hbmem hbθ
      · rw [if_neg hc]
        exact ih acc hpos b hbmem hbθ

theorem fbm_none_stable (cur : Record) :
    ∀ (l : List Record) (acc : Option Record × (Nat × Nat)),
      (l.foldl
          (fun best b =>
            if fracGT (avgScore cur b) best.2 ∧ fracGE (avgScore cur b) fuzzy_match_threshold
            then (some b, avgScore cur b) else best) acc).1 = none →
      acc.1 = none ∧ (l.foldl
          (fun best b =>
            if fracGT (avgScore cur b) best.2 ∧ fracGE (avgScore cur b) fuzzy_match_threshold
            then (some b, avgScore cur b) else best) acc) = acc := by
  intro l
  induction l with
  | nil => intro acc h; exact ⟨h, rfl⟩
  | cons b rest ih =>
    intro acc h
    simp only [List.foldl_cons] at h ⊢
    by_cases hc : fracGT (avgScore cur b) acc.2 ∧
        fracGE (avgScore cur b) fuzzy_match_threshold
    · rw [if_pos hc] at h
      obtain ⟨h1, _⟩ := ih _ h
      simp at h1
    · rw [if_neg hc] at h ⊢
      exact ih acc h

end Alcohol

namespace Alcohol

theorem fracGT_of_not_GE {x y : Nat × Nat} (h : ¬fracGE x y = true) : fracGT y x = true := by
  rw [fracGE_iff] at h
  rw [fracGT_iff]
  omega

theorem ne_nil_of_pyStrip_ne_nil {s : Str} (h : pyStrip s ≠ []) : s ≠ [] :=
  fun hs => h (by rw [hs]; rfl)

theorem fbm_none_cond (cur : Record) :
    ∀ (l : List Record) (acc : Option Record × (Nat × Nat)),
      (l.foldl
          (fun best b =>
            if fracGT (avgScore cur b) best.2 ∧ fracGE (avgScore cur b) fuzzy_match_threshold
            then (some b, avgScore cur b) else best) acc).1 = none →
      ∀ b ∈ l, ¬(fracGT (avgScore cur b) acc.2 = true ∧
        fracGE (avgScore cur b) fuzzy_match_threshold = true) := by
  intro l
  induction l with
  | nil => intro _ _ b hb; cases hb
  | cons c rest ih =>
    intro acc h b hb
    simp only [List.foldl_cons] at h
    by_cases hc : fracGT (avgScore cur c) acc.2 ∧
        fracGE (avgScore cur c) fuzzy_match_threshold
    · rw [if_pos hc] at h
      obtain ⟨h1, _⟩ := fbm_none_stable cur rest _ h
      exact absurd h1 (by simp)
    · rw [if_neg hc] at h
      rcases List.mem_cons.1 hb with rfl | hbmem
      · exact hc
      · exact ih acc h b hbmem

/-- Claim C2: the reconciler picks the backup record with the highest
average similarity over the configured fields; a match exists iff some
average is at or above the threshold and strictly positive; only
`gluten_free_score` and `descriptors` are copied, each only when the
backup value is non-blank (an empty backup field never overwrites), all
other fields are untouched; and a record with no match is returned
unmodified. -/
theorem C2_reconciler_contract (cur : Record) (backups : List Record) :
    (∀ m, (find_best_match cur backups).1 = some m →
      m ∈ backups ∧
      (find_best_match cur backups).2 = avgScore cur m ∧
      fracGE (find_best_match cur backups).2 fuzzy_match_threshold = true ∧
      fracGT (find_best_match cur backups).2 (0, 1) = true ∧
      ∀ b ∈ backups, fracGE (find_best_match cur backups).2 (avgScore cur b) = true) ∧
    ((find_best_match cur backups).1 ≠ none ↔
      ∃ b ∈ backups, fracGE (avgScore cur b) fuzzy_match_threshold = true ∧
        fracGT (avgScore cur b) (0, 1) = true) ∧
    ((find_best_match cur backups).1 = none → restoreOne backups cur = cur) ∧
    (∀ m, (find_best_match cur backups).1 = some m →
      (restoreOne backups cur).gluten_free_score =
        (if pyStrip m.gluten_free_score = [] then cur.gluten_free_score
         else m.gluten_free_score) ∧
      (restoreOne backups cur).descriptors =
        (if pyStrip m.descriptors = [] then cur.descriptors else m.descriptors) ∧
      (restoreOne backups cur).brand_name = cur.brand_name ∧
      (restoreOne backups cur).product_name = cur.product_name ∧
      (restoreOne backups cur).category = cur.category ∧
      (restoreOne backups cur).subcategory = cur.subcategory ∧
      (restoreOne backups cur).price = cur.price ∧
      (restoreOne backups cur).image_url = cur.image_url ∧
      (restoreOne backups cur).lcbo_id = cur.lcbo_id ∧
      (restoreOne backups cur).source = cur.source) ∧
    (∀ curs : List Record, restore_from_backup curs backups = curs.map (restoreOne backups)) := by
  have hinit1 : ∀ m : Record, ((none : Option Record), ((0 : Nat), (1 : Nat))).1 = some m →
      ((none : Option Record), ((0 : Nat), (1 : Nat))).2 = avgScore cur m ∧
      fracGE ((none : Option Record), ((0 : Nat), (1 : Nat))).2 fuzzy_match_threshold = true ∧
      fracGT ((none : Option Record), ((0 : Nat), (1 : Nat))).2 (0, 1) = true :=
    fun _ h => Option.noConfusion h
  have hsel : ∀ m, (find_best_match cur backups).1 = some m →
      m ∈ backups ∧
      (find_best_match cur backups).2 = avgScore cur m ∧
      fracGE (find_best_match cur backups).2 fuzzy_match_threshold = true ∧
      fracGT (find_best_match cur backups).2 (0, 1) = true ∧
      ∀ b ∈ backups, fracGE (find_best_match cur backups).2 (avgScore cur b) = true := by
    intro m hm
    have hmem := fbm_mem cur backups _ m hm
    rcases hmem with h | h
    · exact Option.noConfusion h
    have hinv := fbm_some_inv cur backups _ hinit1 (fun _ => rfl) m hm
    refine ⟨h, hinv.1, hinv.2.1, hinv.2.2, ?_⟩
    intro b hb
    by_cases hGE : fracGE (avgScore cur b) fuzzy_match_threshold = true
    · exact fbm_not_beaten cur backups _ (by simp) b hb hGE
    · have hθ : fracGT fuzzy_match_threshold (avgScore cur b) = true := fracGT_of_not_GE hGE
      have hpos : 0 < (find_best_match cur backups).2.2 :=
        (fbm_score_mono cur backups _ (by simp)).2
      exact fracGE_of_GT
        (fracGT_of_GE_of_GT hpos (by simp [fuzzy_match_threshold]) hinv.2.1 hθ)
  refine ⟨hsel, ⟨?_, ?_⟩, ?_, ?_, fun _ => rfl⟩
  · intro hne
    rcases hs : (find_best_match cur backups).1 with _ | m
    · exact absurd hs hne
    · obtain ⟨hmem, hscore, hGE, hGT, _⟩ := hsel m hs
      exact ⟨m, hmem, by rwa [hscore] at hGE, by rwa [hscore] at hGT⟩
  · rintro ⟨b, hb, hGE, hGT⟩ hnone
    exact fbm_none_cond cur backups _ hnone b hb ⟨hGT, hGE⟩
  · intro hnone
    simp only [restoreOne, hnone]
  · intro m hm
    obtain ⟨_, _, hGE, _, _⟩ := hsel m hm
    simp only [restoreOne, hm, hGE, if_pos]
    by_cases hg : pyStrip m.gluten_free_score = [] <;>
      by_cases hd : pyStrip m.descriptors = [] <;>
        simp [hg, hd, ne_nil_of_pyStrip_ne_nil]

/-- Claim C2 witness: a backup record matching on both fields restores
`descriptors` but leaves `gluten_free_score` (blank in the backup) and
every other field untouched. -/
theorem C2_reconciler_contract_witness :
    (restoreOne
        [{ brand_name := str "Baileys", product_name := str "Original",
           descriptors := str "sweet cream", gluten_free_score := str " " }]
        { brand_name := str "Baileys", product_name := str "Original",
          gluten_free_score := str "7" }).descriptors = str "sweet cream" ∧
    (restoreOne
        [{ brand_name := str "Baileys", product_name := str "Original",
           descriptors := str "sweet cream", gluten_free_score := str " " }]
        { brand_name := str "Baileys", product_name := str "Original",
          gluten_free_score := str "7" }).gluten_free_score = str "7" := by
  have h := (C2_reconciler_contract
    { brand_name := str "Baileys", product_name := str "Original",
      gluten_free_score := str "7" }
    [{ brand_name := str "Baileys", product_name := str "Original",
       descriptors := str "sweet cream", gluten_free_score := str " " }]).2.2.2.1
    { brand_name := str "Baileys", product_name := str "Original",
      descriptors := str "sweet cream", gluten_free_score := str " " } (by decide)
  refine ⟨?_, ?_⟩
  · rw [h.2.1]
    decide
  · rw [h.1]
    decide

end Alcohol

/-! # Claim C3: fuzzy-mode star clustering -/

namespace Alcohol

theorem subperm_append {α : Type} {l₁ l₂ r₁ r₂ : List α}
    (h₁ : l₁.Subperm l₂) (h₂ : r₁.Subperm r₂) : (l₁ ++ r₁).Subperm (l₂ ++ r₂) := by
  obtain ⟨u, hu1, hu2⟩ := h₁
  obtain ⟨v, hv1, hv2⟩ := h₂
  exact ⟨u ++ v, hu1.append hv1, hu2.append hv2⟩

theorem simOK_iff (p q : Record) :
    simOK p q = true ↔
      lowerStr p.product_name ≠ [] ∧ lowerStr q.product_name ≠ [] ∧
      fracGE (simFrac (lowerStr p.product_name) (lowerStr q.product_name))
        similarity_threshold = true := by
  simp [simOK, Bool.and_eq_true, and_assoc]

theorem sweepF_cluster_shape :
    ∀ (fuel : Nat) (l : List Record), ∀ c ∈ sweepF fuel l,
      ∃ p sims, c = p :: sims ∧ sims ≠ [] ∧ (∀ q ∈ sims, simOK p q = true) ∧
        p ∈ l ∧ ∀ q ∈ sims, q ∈ l := by
  intro fuel
  induction fuel with
  | zero => intro l c hc; cases hc
  | succ fuel ih =>
    intro l c hc
    match l with
    | [] => cases hc
    | p :: rest =>
      rw [sweepF] at hc
      by_cases hs : (rest.filter (simOK p)).isEmpty
      · rw [if_pos hs] at hc
        obtain ⟨p', sims, hcshape, hne, hsim, hp, hq⟩ := ih rest c hc
        exact ⟨p', sims, hcshape, hne, hsim, List.mem_cons_of_mem _ hp,
          fun q hqs => List.mem_cons_of_mem _ (hq q hqs)⟩
      · rw [if_neg hs] at hc
        rcases List.mem_cons.1 hc with rfl | hc'
        · refine ⟨p, rest.filter (simOK p), rfl, ?_, ?_, List.mem_cons_self _ _, ?_⟩
          · intro hnil; rw [hnil] at hs; exact hs rfl
          · intro q hq; exact (List.mem_filter.1 hq).2
          · intro q hq
            exact List.mem_cons_of_mem _ (List.mem_of_mem_filter hq)
        · obtain ⟨p', sims, hcshape, hne, hsim, hp, hq⟩ := ih _ c hc'
          refine ⟨p', sims, hcshape, hne, hsim,
            List.mem_cons_of_mem _ (List.mem_of_mem_filter hp),
            fun q hqs => List.mem_cons_of_mem _ (List.mem_of_mem_filter (hq q hqs))⟩

theorem sweepF_join_subperm :
    ∀ (fuel : Nat) (l : List Record), l.length ≤ fuel →
      ((sweepF fuel l).flatMap id).Subperm l := by
  intro fuel
  induction fuel with
  | zero =>
    intro l hl
    simp only [sweepF, List.flatMap_nil]
    exact List.nil_subperm
  | succ fuel ih =>
    intro l hl
    match l with
    | [] =>
      simp only [sweepF, List.flatMap_nil]
      exact List.nil_subperm
    | p :: rest =>
      rw [sweepF]
      simp only [List.length_cons, Nat.succ_le_succ_iff] at hl
      by_cases hs : (rest.filter (simOK p)).isEmpty
      · rw [if_pos hs]
        exact (ih rest hl).trans (List.sublist_cons_self p rest).subperm
      · rw [if_neg hs]
        simp only [List.flatMap_cons, id]
        have hj : ((sweepF fuel (rest.filter fun q => !simOK p q)).flatMap id).Subperm
            (rest.filter fun q => !simOK p q) :=
          ih _ (le_trans (List.length_filter_le _ _) hl)
        have h1 : (rest.filter (simOK p) ++
            (sweepF fuel (rest.filter fun q => !simOK p q)).flatMap id).Subperm
            (rest.filter (simOK p) ++ rest.filter fun q => !simOK p q) :=
          subperm_append (List.Subperm.refl _) hj
        have h2 : (rest.filter (simOK p) ++ rest.filter fun q => !simOK p q).Perm rest :=
          List.filter_append_perm _ rest
        have h3 := h1.trans h2.subperm
        exact (List.subperm_cons p).2 h3

theorem bucketsBy_eq_foldl_pairs {α : Type} (key : α → Str) (l : List α) :
    bucketsBy key l =
      (l.map fun p => (key p, p)).foldl (fun a q => insertBucket q.1 q.2 a) [] := by
  rw [bucketsBy, List.foldl_map]

/-- Claim C3: every fuzzy cluster is a star around its first member — all
later members pass the similarity threshold against it — clusters have at
least two members, all from one exact lower-cased-brand bucket, no member
has an empty product name, and the clusters are pairwise disjoint (their
concatenation is a sub-multiset of the input). -/
theorem C3_fuzzy_star_clusters (ps : List Record) :
    (∀ c ∈ find_duplicates ps, ∃ p sims, c = p :: sims ∧ sims ≠ [] ∧
      (∀ q ∈ sims,
        fracGE (simFrac (lowerStr p.product_name) (lowerStr q.product_name))
          similarity_threshold = true) ∧
      (∀ r ∈ c, r.product_name ≠ []) ∧
      (∀ r ∈ c, lowerStr r.brand_name = lowerStr p.brand_name)) ∧
    ((find_duplicates ps).flatMap id).Subperm ps := by
  constructor
  · intro c hc
    rw [find_duplicates] at hc
    obtain ⟨kv, hkv, hcin⟩ := List.mem_flatMap.1 hc
    by_cases hlen : kv.2.length ≤ 1
    · rw [if_pos hlen] at hcin; cases hcin
    rw [if_neg hlen] at hcin
    obtain ⟨p, sims, hcshape, hne, hsim, hp, hq⟩ := sweepF_cluster_shape _ _ c hcin
    have hbucket : ∀ v ∈ kv.2, lowerStr v.brand_name = kv.1 := by
      intro v hv
      rw [bucketsBy_eq_foldl_pairs] at hkv
      refine foldl_insert_mem_prop (P := fun k v => lowerStr v.brand_name = k) _ []
        (by simp) ?_ kv hkv v hv
      intro pr hpr
      obtain ⟨r, _, rfl⟩ := List.mem_map.1 hpr
      rfl
    refine ⟨p, sims, hcshape, hne, ?_, ?_, ?_⟩
    · intro q hqs
      exact ((simOK_iff p q).1 (hsim q hqs)).2.2
    · intro r hr
      rw [hcshape] at hr
      rcases List.mem_cons.1 hr with rfl | hrs
      · obtain ⟨q0, hq0⟩ := List.exists_mem_of_ne_nil sims hne
        have := ((simOK_iff r q0).1 (hsim q0 hq0)).1
        simpa [lowerStr] using this
      · have := ((simOK_iff p r).1 (hsim r hrs)).2.1
        simpa [lowerStr] using this
    · intro r hr
      rw [hcshape] at hr
      rcases List.mem_cons.1 hr with rfl | hrs
      · rfl
      · rw [hbucket r (hq r hrs), hbucket p hp]
  · rw [find_duplicates]
    rw [List.flatMap_assoc]
    have hpt : ∀ kv ∈ bucketsBy (fun p => lowerStr p.brand_name) ps,
        (((if kv.2.length ≤ 1 then [] else sweep kv.2).flatMap id)).Subperm kv.2 := by
      intro kv _
      by_cases hlen : kv.2.length ≤ 1
      · rw [if_pos hlen]
        simp only [List.flatMap_nil]
        exact List.nil_subperm
      · rw [if_neg hlen]
        exact sweepF_join_subperm _ _ (le_refl _)
    have hsum : ∀ (bs : List (Str × List Record)),
        (∀ kv ∈ bs, ((if kv.2.length ≤ 1 then [] else sweep kv.2).flatMap id).Subperm kv.2) →
        (bs.flatMap fun kv => (if kv.2.length ≤ 1 then [] else sweep kv.2).flatMap id).Subperm
          (bs.flatMap (·.2)) := by
      intro bs
      induction bs with
      | nil => intro _; exact List.nil_subperm
      | cons kv rest ih =>
        intro h
        simp only [List.flatMap_cons]
        exact subperm_append (h kv (List.mem_cons_self _ _))
          (ih fun kv' h' => h kv' (List.mem_cons_of_mem _ h'))
    have hperm : ((bucketsBy (fun p => lowerStr p.brand_name) ps).flatMap (·.2)).Perm ps := by
      rw [bucketsBy_eq_foldl_pairs]
      have h0 := foldl_insert_join_perm (ps.map fun p => (lowerStr p.brand_name, p)) []
      simp only [List.flatMap_nil, List.append_nil, List.map_map] at h0
      have hid : (List.map ((fun x : Str × Record => x.2) ∘ fun p =>
          (lowerStr p.brand_name, p)) ps) = ps := by
        simp [Function.comp_def]
      rw [hid] at h0
      exact h0
    exact (hsum _ hpt).trans hperm.subperm

set_option maxRecDepth 8000 in
/-- Claim C3 witness: the theorem applied to a concrete same-brand pair
and the single cluster it produces. -/
theorem C3_fuzzy_star_clusters_witness :
    ∃ p sims,
      ([{ brand_name := str "Absolut", product_name := str "Vodka 750ml" },
        { brand_name := str "absolut", product_name := str "vodka 750ML" }] :
          List Record) = p :: sims ∧ sims ≠ [] := by
  obtain ⟨p, sims, hshape, hne, _, _, _⟩ :=
    (C3_fuzzy_star_clusters
      [{ brand_name := str "Absolut", product_name := str "Vodka 750ml" },
       { brand_name := str "absolut", product_name := str "vodka 750ML" }]).1
      [{ brand_name := str "Absolut", product_name := str "Vodka 750ml" },
       { brand_name := str "absolut", product_name := str "vodka 750ML" }]
      (by decide)
  exact ⟨p, sims, hshape, hne⟩

end Alcohol

/-! # Claim C8: brand consolidation -/

namespace Alcohol

theorem insertBucket_self {α : Type} (k : Str) (v : α) :
    ∀ bs : List (Str × List α), ∃ kv ∈ insertBucket k v bs, kv.1 = k ∧ v ∈ kv.2 := by
  intro bs
  induction bs with
  | nil => exact ⟨(k, [v]), by simp [insertBucket]⟩
  | cons b rest ih =>
    obtain ⟨k', vs⟩ := b
    simp only [insertBucket]
    split
    · next heq =>
      exact ⟨(k', vs ++ [v]), List.mem_cons_self _ _, heq.symm, by simp⟩
    · obtain ⟨kv, hkv, hk, hv⟩ := ih
      exact ⟨kv, List.mem_cons_of_mem _ hkv, hk, hv⟩

theorem insertBucket_mono {α : Type} (k : Str) (v : α) (kv0 : Str × List α) :
    ∀ bs : List (Str × List α), kv0 ∈ bs →
      ∃ kv ∈ insertBucket k v bs, kv.1 = kv0.1 ∧ ∀ x ∈ kv0.2, x ∈ kv.2 := by
  intro bs
  induction bs with
  | nil => intro h; cases h
  | cons b rest ih =>
    obtain ⟨k', vs⟩ := b
    intro hmem
    simp only [insertBucket]
    split
    · rcases List.mem_cons.1 hmem with h0 | h
      · refine ⟨(k', vs ++ [v]), List.mem_cons_self _ _, by rw [h0], ?_⟩
        intro x hx
        rw [h0] at hx
        exact List.mem_append.2 (Or.inl hx)
      · exact ⟨kv0, List.mem_cons_of_mem _ h, rfl, fun x hx => hx⟩
    · rcases List.mem_cons.1 hmem with h0 | h
      · refine ⟨(k', vs), List.mem_cons_self _ _, by rw [h0], ?_⟩
        intro x hx
        rw [h0] at hx
        exact hx
      · obtain ⟨kv, hkv, hk, hsub⟩ := ih h
        exact ⟨kv, List.mem_cons_of_mem _ hkv, hk, hsub⟩

theorem foldl_insert_mono {α : Type} :
    ∀ (l : List (Str × α)) (acc : List (Str × List α)) (kv0 : Str × List α), kv0 ∈ acc →
      ∃ kv ∈ l.foldl (fun a q => insertBucket q.1 q.2 a) acc,
        kv.1 = kv0.1 ∧ ∀ x ∈ kv0.2, x ∈ kv.2 := by
  intro l
  induction l with
  | nil => intro acc kv0 h; exact ⟨kv0, h, rfl, fun x hx => hx⟩
  | cons q rest ih =>
    intro acc kv0 h
    simp only [List.foldl_cons]
    obtain ⟨kv1, hkv1, hk1, hsub1⟩ := insertBucket_mono q.1 q.2 kv0 acc h
    obtain ⟨kv2, hkv2, hk2, hsub2⟩ := ih _ kv1 hkv1
    exact ⟨kv2, hkv2, hk2.trans hk1, fun x hx => hsub2 x (hsub1 x hx)⟩

theorem foldl_insert_cover {α : Type} :
    ∀ (l : List (Str × α)) (acc : List (Str × List α)) (pr : Str × α), pr ∈ l →
      ∃ kv ∈ l.foldl (fun a q => insertBucket q.1 q.2 a) acc,
        kv.1 = pr.1 ∧ pr.2 ∈ kv.2 := by
  intro l
  induction l with
  | nil => intro _ _ h; cases h
  | cons q rest ih =>
    intro acc pr hpr
    simp only [List.foldl_cons]
    rcases List.mem_cons.1 hpr with rfl | h
    · obtain ⟨kv1, hkv1, hk1, hv1⟩ := insertBucket_self pr.1 pr.2 acc
      obtain ⟨kv2, hkv2, hk2, hsub2⟩ := foldl_insert_mono rest _ kv1 hkv1
      exact ⟨kv2, hkv2, hk2.trans hk1, hsub2 _ hv1⟩
    · exact ih _ pr h

theorem insertBucket_keys_sub {α : Type} (k : Str) (v : α) :
    ∀ bs : List (Str × List α), ∀ x ∈ (insertBucket k v bs).map (·.1),
      x = k ∨ x ∈ bs.map (·.1) := by
  intro bs
  induction bs with
  | nil => intro x hx; simp [insertBucket] at hx; exact Or.inl hx
  | cons b rest ih =>
    obtain ⟨k', vs⟩ := b
    intro x hx
    simp only [insertBucket] at hx
    split at hx
    · simp only [List.map_cons, List.mem_cons] at hx
      rcases hx with rfl | hx
      · exact Or.inr (by simp)
      · exact Or.inr (by simp [hx])
    · simp only [List.map_cons, List.mem_cons] at hx
      rcases hx with rfl | hx
      · exact Or.inr (by simp)
      · rcases ih x hx with h | h
        · exact Or.inl h
        · exact Or.inr (by simp [h])

theorem insertBucket_keys_nodup {α : Type} (k : Str) (v : α) :
    ∀ bs : List (Str × List α), ((bs.map (·.1)).Nodup) →
      (((insertBucket k v bs).map (·.1)).Nodup) := by
  intro bs
  induction bs with
  | nil => intro _; simp [insertBucket]
  | cons b rest ih =>
    obtain ⟨k', vs⟩ := b
    intro hnd
    simp only [List.map_cons, List.nodup_cons] at hnd
    simp only [insertBucket]
    split
    · simp only [List.map_cons, List.nodup_cons]
      exact hnd
    · next hne =>
      simp only [List.map_cons, List.nodup_cons]
      refine ⟨?_, ih hnd.2⟩
      intro hmem
      rcases insertBucket_keys_sub k v rest _ hmem with rfl | h
      · exact hne rfl
      · exact hnd.1 h

theorem foldl_insert_keys_nodup {α : Type} :
    ∀ (l : List (Str × α)) (acc : List (Str × List α)),
      ((acc.map (·.1)).Nodup) →
      (((l.foldl (fun a q => insertBucket q.1 q.2 a) acc).map (·.1)).Nodup) := by
  intro l
  induction l with
  | nil => intro acc h; exact h
  | cons q rest ih =>
    intro acc h
    exact ih _ (insertBucket_keys_nodup q.1 q.2 acc h)

theorem keys_nodup_unique {α : Type} :
    ∀ (bs : List (Str × List α)), ((bs.map (·.1)).Nodup) →
      ∀ kv1 ∈ bs, ∀ kv2 ∈ bs, kv1.1 = kv2.1 → kv1 = kv2 := by
  intro bs
  induction bs with
  | nil => intro _ kv1 h; cases h
  | cons b rest ih =>
    intro hnd kv1 h1 kv2 h2 heq
    simp only [List.map_cons, List.nodup_cons] at hnd
    rcases List.mem_cons.1 h1 with rfl | h1m
    · rcases List.mem_cons.1 h2 with rfl | h2m
      · rfl
      · exact absurd (heq ▸ List.mem_map_of_mem (·.1) h2m) hnd.1
    · rcases List.mem_cons.1 h2 with rfl | h2m
      · exact absurd (heq ▸ List.mem_map_of_mem (·.1) h1m) hnd.1
      · exact ih hnd.2 kv1 h1m kv2 h2m heq

theorem pymax_init_le (f : Str → ℤ) :
    ∀ (xs : List Str) (a : Str),
      f a ≤ f (xs.foldl (fun best c => if f c > f best then c else best) a) := by
  intro xs
  induction xs with
  | nil => intro a; exact le_refl _
  | cons c rest ih =>
    intro a
    simp only [List.foldl_cons]
    by_cases hc : f c > f a
    · rw [if_pos hc]
      exact le_of_lt (lt_of_lt_of_le hc (ih c))
    · rw [if_neg hc]
      exact ih a

theorem pymax_split (f : Str → ℤ) :
    ∀ (xs : List Str) (a : Str),
      ∃ pre post,
        a :: xs = pre ++ (xs.foldl (fun best c => if f c > f best then c else best) a) :: post ∧
        (∀ y ∈ pre, f y < f (xs.foldl (fun best c => if f c > f best then c else best) a)) ∧
        (∀ y ∈ post, f y ≤ f (xs.foldl (fun best c => if f c > f best then c else best) a)) := by
  intro xs
  induction xs with
  | nil =>
    intro a
    exact ⟨[], [], rfl, by simp, by simp⟩
  | cons c rest ih =>
    intro a
    simp only [List.foldl_cons]
    by_cases hc : f c > f a
    · rw [if_pos hc]
      obtain ⟨pre, post, hdec, hpre, hpost⟩ := ih c
      refine ⟨a :: pre, post, by rw [List.cons_append, ← hdec], ?_, hpost⟩
      intro y hy
      rcases List.mem_cons.1 hy with rfl | hy'
      · exact lt_of_lt_of_le hc (pymax_init_le f rest c)
      · exact hpre y hy'
    · rw [if_neg hc]
      obtain ⟨pre, post, hdec, hpre, hpost⟩ := ih a
      match pre, hdec with
      | [], hdec =>
        simp only [List.nil_append, List.cons.injEq] at hdec
        obtain ⟨ha, hrest⟩ := hdec
        refine ⟨[], c :: post, ?_, by simp, ?_⟩
        · rw [List.nil_append, ← ha, hrest]
        · intro y hy
          rcases List.mem_cons.1 hy with rfl | hy'
          · rw [← ha]; exact le_of_not_lt hc
          · exact hpost y hy'
      | a' :: pre', hdec =>
        simp only [List.cons_append, List.cons.injEq] at hdec
        obtain ⟨ha, hrest⟩ := hdec
        subst ha
        refine ⟨a :: c :: pre', post,
          by rw [List.cons_append, List.cons_append, ← hrest], ?_, hpost⟩
        intro y hy
        rcases List.mem_cons.1 hy with rfl | hy'
        · exact hpre y (List.mem_cons_self _ _)
        · rcases List.mem_cons.1 hy' with rfl | hy''
          · exact lt_of_le_of_lt (le_of_not_lt hc) (hpre a (List.mem_cons_self _ _))
          · exact hpre y (List.mem_cons_of_mem _ hy'')

end Alcohol

namespace Alcohol

theorem lookup_none (al : List (Str × Str)) (b : Str) (h : ∀ e ∈ al, e.1 ≠ b) :
    al.lookup b = none := by
  induction al with
  | nil => rfl
  | cons e es ih =>
    obtain ⟨k, v⟩ := e
    have hk : k ≠ b := h (k, v) (List.mem_cons_self _ _)
    have hbk : (b == k) = false := beq_eq_false_iff_ne.2 fun hbk => hk hbk.symm
    simp only [List.lookup, hbk]
    exact ih fun e he => h e (List.mem_cons_of_mem _ he)

theorem lookup_some_of (al : List (Str × Str)) (b w : Str)
    (hex : ∃ e ∈ al, e.1 = b) (huniq : ∀ e ∈ al, e.1 = b → e.2 = w) :
    al.lookup b = some w := by
  induction al with
  | nil => obtain ⟨e, he, _⟩ := hex; cases he
  | cons e es ih =>
    obtain ⟨k, v⟩ := e
    by_cases hk : k = b
    · have hbk : (b == k) = true := beq_iff_eq.2 hk.symm
      simp only [List.lookup, hbk]
      exact congrArg some (huniq (k, v) (List.mem_cons_self _ _) hk)
    · have hbk : (b == k) = false := beq_eq_false_iff_ne.2 fun hbk => hk hbk.symm
      simp only [List.lookup, hbk]
      refine ih ?_ fun e he hb => huniq e (List.mem_cons_of_mem _ he) hb
      obtain ⟨e, he, hb⟩ := hex
      rcases List.mem_cons.1 he with rfl | he'
      · exact absurd hb hk
      · exact ⟨e, he', hb⟩

theorem brand_mapping_mem (ps : List Record) :
    ∀ e ∈ brand_mapping ps, ∃ kv ∈ brand_groups ps, 1 < kv.2.length ∧
      e.1 ∈ kv.2 ∧ e.1 ≠ choose_best_brand_name kv.2 ∧
      e.2 = choose_best_brand_name kv.2 := by
  rw [brand_mapping]
  have main : ∀ (gs : List (Str × List Str)) (acc : List (Str × Str)),
      ∀ e ∈ gs.foldl
          (fun acc kv =>
            if 1 < kv.2.length then
              acc ++ kv.2.filterMap fun alt =>
                if alt ≠ choose_best_brand_name kv.2 then
                  some (alt, choose_best_brand_name kv.2)
                else none
            else acc)
          acc,
        e ∈ acc ∨ ∃ kv ∈ gs, 1 < kv.2.length ∧ e.1 ∈ kv.2 ∧
          e.1 ≠ choose_best_brand_name kv.2 ∧ e.2 = choose_best_brand_name kv.2 := by
    intro gs
    induction gs with
    | nil => intro acc e he; exact Or.inl he
    | cons kv rest ih =>
      intro acc e he
      simp only [List.foldl_cons] at he
      by_cases hlen : 1 < kv.2.length
      · rw [if_pos hlen] at he
        rcases ih _ e he with hacc | ⟨kv', hkv', hp⟩
        · rcases List.mem_append.1 hacc with h | h
          · exact Or.inl h
          · obtain ⟨alt, halt, hsome⟩ := List.mem_filterMap.1 h
            by_cases hne : alt ≠ choose_best_brand_name kv.2
            · rw [if_pos hne] at hsome
              obtain rfl := Option.some_inj.1 hsome
              exact Or.inr ⟨kv, List.mem_cons_self _ _, hlen, halt, hne, rfl⟩
            · rw [if_neg hne] at hsome; cases hsome
        · exact Or.inr ⟨kv', List.mem_cons_of_mem _ hkv', hp⟩
      · rw [if_neg hlen] at he
        rcases ih _ e he with h | ⟨kv', hkv', hp⟩
        · exact Or.inl h
        · exact Or.inr ⟨kv', List.mem_cons_of_mem _ hkv', hp⟩
  intro e he
  rcases main _ [] e he with h | h
  · cases h
  · exact h

theorem brand_mapping_exists (ps : List Record) {kv : Str × List Str} {alt : Str}
    (hkv : kv ∈ brand_groups ps) (hlen : 1 < kv.2.length) (halt : alt ∈ kv.2)
    (hne : alt ≠ choose_best_brand_name kv.2) :
    (alt, choose_best_brand_name kv.2) ∈ brand_mapping ps := by
  rw [brand_mapping]
  have persist : ∀ (gs : List (Str × List Str)) (acc : List (Str × Str)) (e : Str × Str),
      e ∈ acc → e ∈ gs.foldl
        (fun acc kv =>
          if 1 < kv.2.length then
            acc ++ kv.2.filterMap fun alt =>
              if alt ≠ choose_best_brand_name kv.2 then
                some (alt, choose_best_brand_name kv.2)
              else none
          else acc)
        acc := by
    intro gs
    induction gs with
    | nil => intro acc e he; exact he
    | cons kv' rest ih =>
      intro acc e he
      simp only [List.foldl_cons]
      by_cases hl : 1 < kv'.2.length
      · rw [if_pos hl]
        exact ih _ e (List.mem_append.2 (Or.inl he))
      · rw [if_neg hl]
        exact ih _ e he
  have main : ∀ (gs : List (Str × List Str)) (acc : List (Str × Str)), kv ∈ gs →
      (alt, choose_best_brand_name kv.2) ∈ gs.foldl
        (fun acc kv =>
          if 1 < kv.2.length then
            acc ++ kv.2.filterMap fun alt =>
              if alt ≠ choose_best_brand_name kv.2 then
                some (alt, choose_best_brand_name kv.2)
              else none
          else acc)
        acc := by
    intro gs
    induction gs with
    | nil => intro _ h; cases h
    | cons kv' rest ih =>
      intro acc hmem
      simp only [List.foldl_cons]
      rcases List.mem_cons.1 hmem with rfl | h
      · rw [if_pos hlen]
        refine persist rest _ _ (List.mem_append.2 (Or.inr ?_))
        exact List.mem_filterMap.2 ⟨alt, halt, by rw [if_pos hne]⟩
      · by_cases hl : 1 < kv'.2.length
        · rw [if_pos hl]; exact ih _ h
        · rw [if_neg hl]; exact ih _ h
  exact main _ [] hkv

theorem brand_groups_member_key (ps : List Record) :
    ∀ kv ∈ brand_groups ps, ∀ v ∈ kv.2, normKey v = kv.1 ∧ v ≠ [] := by
  intro kv hkv v hv
  rw [brand_groups] at hkv
  refine foldl_insert_mem_prop (P := fun k v => normKey v = k ∧ v ≠ []) _ []
    (by simp) ?_ kv hkv v hv
  intro pr hpr
  obtain ⟨r, _, hsome⟩ := List.mem_filterMap.1 hpr
  by_cases hb : r.brand_name ≠ []
  · rw [if_pos hb] at hsome
    obtain rfl := Option.some_inj.1 hsome
    exact ⟨rfl, hb⟩
  · rw [if_neg hb] at hsome; cases hsome

theorem brand_groups_keys_nodup (ps : List Record) :
    (((brand_groups ps).map (·.1)).Nodup) := by
  rw [brand_groups]
  exact foldl_insert_keys_nodup _ [] (by simp)

end Alcohol

namespace Alcohol

set_option maxRecDepth 8000 in
/-- Claim C8: in every multi-occurrence brand group the consolidation
winner is the group member maximizing the score (apostrophe +10, all-caps
−5, title-case +5, −1 per word, −1 per double space), ties resolved to
the first encountered; every record is rewritten according to its group's
winner (`rewriteSpec`); and both "Baileys" and "Bailey's" records end up
with brand "Bailey's". -/
theorem C8_brand_consolidation (ps : List Record) :
    (∀ kv ∈ brand_groups ps, 1 < kv.2.length →
      ∃ pre post, kv.2 = pre ++ choose_best_brand_name kv.2 :: post ∧
        (∀ y ∈ pre, score_brand y < score_brand (choose_best_brand_name kv.2)) ∧
        (∀ y ∈ post, score_brand y ≤ score_brand (choose_best_brand_name kv.2))) ∧
    normalize_brand_alternatives ps = ps.map (rewriteSpec ps) ∧
    normalize_brand_alternatives
        [{ brand_name := str "Baileys", product_name := str "Original" },
         { brand_name := str "Bailey" ++ apostropheChar :: str "s",
           product_name := str "Original" }] =
      [{ brand_name := str "Bailey" ++ apostropheChar :: str "s",
         product_name := str "Original" },
       { brand_name := str "Bailey" ++ apostropheChar :: str "s",
         product_name := str "Original" }] := by
  refine ⟨?_, ?_, by decide⟩
  · intro kv hkv hlen
    match hkv2 : kv.2, hlen with
    | a :: xs, _ =>
      have hbest : choose_best_brand_name (a :: xs) =
          xs.foldl (fun best c => if score_brand c > score_brand best then c else best) a := rfl
      rw [hbest]
      exact pymax_split score_brand xs a
  · rw [normalize_brand_alternatives]
    refine List.map_congr_left ?_
    intro p hp
    by_cases hb : p.brand_name = []
    · have hnone : (brand_mapping ps).lookup p.brand_name = none := by
        refine lookup_none _ _ ?_
        intro e he
        obtain ⟨kv', hkv', _, hmem', _, _⟩ := brand_mapping_mem ps e he
        have := (brand_groups_member_key ps kv' hkv' e.1 hmem').2
        rw [hb]
        exact this
      rw [hnone, rewriteSpec]
      cases hf : (brand_groups ps).find? fun kv => kv.1 = normKey p.brand_name <;>
        simp [hb]
    · have hpr : (normKey p.brand_name, p.brand_name) ∈
          ps.filterMap fun q =>
            if q.brand_name ≠ [] then some (normKey q.brand_name, q.brand_name) else none :=
        List.mem_filterMap.2 ⟨p, hp, by rw [if_pos hb]⟩
      have hcover := foldl_insert_cover _ [] _ hpr
      rw [← brand_groups] at hcover
      obtain ⟨kv0, hkv0, hk0, hv0⟩ := hcover
      have hsome : ((brand_groups ps).find? fun kv =>
          kv.1 = normKey p.brand_name).isSome :=
        List.find?_isSome.2 ⟨kv0, hkv0, by simp [hk0]⟩
      obtain ⟨kv1, hfind⟩ := Option.isSome_iff_exists.1 hsome
      have hkv1mem := List.mem_of_find?_eq_some hfind
      have hkey1 : kv1.1 = normKey p.brand_name := by simpa using List.find?_some hfind
      have hkv1eq : kv1 = kv0 :=
        keys_nodup_unique _ (brand_groups_keys_nodup ps) kv1 hkv1mem kv0 hkv0
          (hkey1.trans hk0.symm)
      have hmem1 : p.brand_name ∈ kv1.2 := by rw [hkv1eq]; exact hv0
      simp only [rewriteSpec, hfind]
      by_cases hcond : 1 < kv1.2.length ∧
          p.brand_name ≠ choose_best_brand_name kv1.2
      · rw [if_pos ⟨hb, hcond.1, hcond.2⟩]
        have hlook : (brand_mapping ps).lookup p.brand_name =
            some (choose_best_brand_name kv1.2) := by
          refine lookup_some_of _ _ _
            ⟨(p.brand_name, choose_best_brand_name kv1.2),
              brand_mapping_exists ps hkv1mem hcond.1 hmem1 hcond.2, rfl⟩ ?_
          intro e he heq
          obtain ⟨kv', hkv', hlen', hmem', _, hval'⟩ := brand_mapping_mem ps e he
          have hkeq : kv' = kv1 := by
            refine keys_nodup_unique _ (brand_groups_keys_nodup ps) kv' hkv' kv1 hkv1mem ?_
            rw [← (brand_groups_member_key ps kv' hkv' e.1 hmem').1, heq, hkey1]
          rw [hval', hkeq]
        simp only [hlook]
      · rw [if_neg fun hcc => hcond ⟨hcc.2.1, hcc.2.2⟩]
        have hnone : (brand_mapping ps).lookup p.brand_name = none := by
          refine lookup_none _ _ ?_
          intro e he heq
          obtain ⟨kv', hkv', hlen', hmem', hne', hval'⟩ := brand_mapping_mem ps e he
          have hkeq : kv' = kv1 := by
            refine keys_nodup_unique _ (brand_groups_keys_nodup ps) kv' hkv' kv1 hkv1mem ?_
            rw [← (brand_groups_member_key ps kv' hkv' e.1 hmem').1, heq, hkey1]
          rw [hkeq] at hlen' hne'
          have hpb : p.brand_name = choose_best_brand_name kv1.2 := by
            by_contra hne
            exact hcond ⟨hlen', hne⟩
          rw [heq, hpb] at hne'
          exact hne' rfl
        simp only [hnone]

set_option maxRecDepth 8000 in
/-- Claim C8 witness: the winner decomposition applied to the concrete
Baileys group: the apostrophe-bearing form wins and everything before it
scores strictly lower. -/
theorem C8_brand_consolidation_witness :
    ∃ pre post,
      [str "Baileys", str "Bailey" ++ apostropheChar :: str "s"] =
        pre ++ choose_best_brand_name
          [str "Baileys", str "Bailey" ++ apostropheChar :: str "s"] :: post ∧
      ∀ y ∈ pre, score_brand y <
        score_brand (choose_best_brand_name
          [str "Baileys", str "Bailey" ++ apostropheChar :: str "s"]) := by
  obtain ⟨pre, post, hdec, hpre, _⟩ :=
    (C8_brand_consolidation
      [{ brand_name := str "Baileys", product_name := str "Original" },
       { brand_name := str "Bailey" ++ apostropheChar :: str "s",
         product_name := str "Original" }]).1
      (str "baileys", [str "Baileys", str "Bailey" ++ apostropheChar :: str "s"])
      (by decide) (by decide)
  exact ⟨pre, post, hdec, hpre⟩

end Alcohol

/-! # Claim C7: idempotence of subcategory normalization -/

namespace Alcohol

theorem pyStrip_eq_rdropWhile (w : Str) :
    pyStrip w = List.rdropWhile isSpaceChar (w.dropWhile isSpaceChar) := rfl

theorem pyStrip_idem (s : Str) : pyStrip (pyStrip s) = pyStrip s := by
  have hdu : (List.rdropWhile isSpaceChar (s.dropWhile isSpaceChar)).dropWhile isSpaceChar =
      List.rdropWhile isSpaceChar (s.dropWhile isSpaceChar) := by
    rw [List.dropWhile_eq_self_iff]
    intro hl
    obtain ⟨r, hr⟩ := List.rdropWhile_prefix isSpaceChar (s.dropWhile isSpaceChar)
    have htt : (s.dropWhile isSpaceChar).dropWhile isSpaceChar = s.dropWhile isSpaceChar :=
      List.dropWhile_idempotent isSpaceChar s
    match hu : List.rdropWhile isSpaceChar (s.dropWhile isSpaceChar), hl with
    | c :: cs, _ =>
      have hts : s.dropWhile isSpaceChar = c :: (cs ++ r) := by
        rw [← hr, hu]
        simp
      have hpc : ¬isSpaceChar c = true := by
        intro hpc
        rw [hts, List.dropWhile_cons, if_pos hpc] at htt
        have hle := (List.dropWhile_suffix (l := cs ++ r) isSpaceChar).length_le
        have := congrArg List.length htt
        simp only [List.length_cons] at this
        omega
      simpa using hpc
  calc pyStrip (pyStrip s)
      = List.rdropWhile isSpaceChar
          ((List.rdropWhile isSpaceChar (s.dropWhile isSpaceChar)).dropWhile isSpaceChar) := rfl
    _ = List.rdropWhile isSpaceChar (List.rdropWhile isSpaceChar (s.dropWhile isSpaceChar)) := by
        rw [hdu]
    _ = List.rdropWhile isSpaceChar (s.dropWhile isSpaceChar) :=
        List.rdropWhile_idempotent isSpaceChar (s.dropWhile isSpaceChar)
    _ = pyStrip s := rfl

theorem mem_of_lookup_table {β : Type} :
    ∀ {al : List (Str × β)} {b : Str} {v : β}, al.lookup b = some v → (b, v) ∈ al := by
  intro al
  induction al with
  | nil => intro b v h; cases h
  | cons e es ih =>
    intro b v h
    obtain ⟨k, w⟩ := e
    by_cases hk : b = k
    · have hbk : (b == k) = true := beq_iff_eq.2 hk
      simp only [List.lookup, hbk] at h
      obtain rfl := Option.some_inj.1 h
      exact hk ▸ List.mem_cons_self _ _
    · have hbk : (b == k) = false := beq_eq_false_iff_ne.2 hk
      simp only [List.lookup, hbk] at h
      exact List.mem_cons_of_mem _ (ih h)

end Alcohol

/-! # Claim C6: the fuzzy subcategory fallback.  The chain below shows that
`matchesTotal a b` is the length of a common sublist of `a` and `b`, that two
common sublists of one string overlap in a common subsequence (pigeonhole),
that the row DP `lcsRows` bounds every common sublist, and that the decidable
triangular whole-table check `triCheck` therefore rules out one input fuzzily
matching two keys with different canonical values — so the first fuzzy hit is
the best fuzzy hit. -/

namespace Alcohol

theorem foldl_choice {α : Type} (f : α → α → α) (hf : ∀ x y, f x y = x ∨ f x y = y) :
    ∀ (l : List α) (init : α), l.foldl f init = init ∨ l.foldl f init ∈ l := by
  intro l
  induction l with
  | nil => intro init; exact Or.inl rfl
  | cons c rest ih =>
    intro init
    rw [List.foldl_cons]
    rcases ih (f init c) with h | h
    · rw [h]
      rcases hf init c with h2 | h2
      · exact Or.inl h2
      · rw [h2]; exact Or.inr (List.mem_cons_self _ _)
    · exact Or.inr (List.mem_cons_of_mem _ h)

theorem lcpLen_le_left : ∀ a b : Str, lcpLen a b ≤ a.length := by
  intro a
  induction a with
  | nil => intro b; cases b <;> simp [lcpLen]
  | cons c cs ih =>
    intro b
    cases b with
    | nil => simp [lcpLen]
    | cons d ds =>
      by_cases h : c = d
      · simp only [lcpLen, if_pos h, List.length_cons]
        exact Nat.succ_le_succ (ih ds)
      · simp [lcpLen, if_neg h]

theorem lcpLen_take_eq : ∀ a b : Str, a.take (lcpLen a b) = b.take (lcpLen a b) := by
  intro a
  induction a with
  | nil => intro b; cases b <;> simp [lcpLen]
  | cons c cs ih =>
    intro b
    cases b with
    | nil => simp [lcpLen]
    | cons d ds =>
      by_cases h : c = d
      · simp only [lcpLen, if_pos h, List.take_succ_cons]
        rw [h, ih ds]
      · simp [lcpLen, if_neg h]

/-- The fold in `findLongestMatch` returns the initial `(0, 0, 0)` or one of
the scanned candidates `(i, j, lcpLen (a.drop i) (b.drop j))`. -/
theorem findLongestMatch_spec (a b : Str) :
    findLongestMatch a b = (0, 0, 0) ∨
      ∃ i j, findLongestMatch a b = (i, j, lcpLen (a.drop i) (b.drop j)) := by
  unfold findLongestMatch
  have hchoice : ∀ x y : Nat × Nat × Nat,
      (fun best c => if c.2.2 > best.2.2 then c else best) x y = x ∨
        (fun best c => if c.2.2 > best.2.2 then c else best) x y = y := by
    intro x y
    by_cases h : y.2.2 > x.2.2 <;> simp [h]
  have hc := foldl_choice (fun best c => if c.2.2 > best.2.2 then c else best) hchoice
      ((List.range a.length).flatMap fun i =>
        (List.range b.length).map fun j => (i, j, lcpLen (a.drop i) (b.drop j)))
      (0, 0, 0)
  rcases hc with h | h
  · exact Or.inl h
  · right
    obtain ⟨i, _, hmem⟩ := List.mem_flatMap.1 h
    obtain ⟨j, _, heq⟩ := List.mem_map.1 hmem
    exact ⟨i, j, heq.symm⟩

/-- `matchesTotalF fuel a b` is the length of some common sublist
(contiguous pieces glued in order, hence a common subsequence) of `a` and
`b`, for every fuel. -/
theorem matchesTotalF_sublist (fuel : Nat) :
    ∀ a b : Str, ∃ s : Str,
      s.Sublist a ∧ s.Sublist b ∧ s.length = matchesTotalF fuel a b := by
  induction fuel with
  | zero => intro a b; exact ⟨[], List.nil_sublist a, List.nil_sublist b, rfl⟩
  | succ fuel ih =>
    intro a b
    by_cases h0 : (findLongestMatch a b).2.2 = 0
    · refine ⟨[], List.nil_sublist a, List.nil_sublist b, ?_⟩
      simp [matchesTotalF, h0]
    · rcases findLongestMatch_spec a b with hflm | ⟨i, j, hflm⟩
      · rw [hflm] at h0; simp at h0
      have hk0 : ¬lcpLen (a.drop i) (b.drop j) = 0 := by
        rw [hflm] at h0; simpa using h0
      obtain ⟨s1, hs1a, hs1b, hl1⟩ := ih (a.take i) (b.take j)
      obtain ⟨s2, hs2a, hs2b, hl2⟩ :=
        ih (a.drop (i + lcpLen (a.drop i) (b.drop j)))
          (b.drop (j + lcpLen (a.drop i) (b.drop j)))
      refine ⟨s1 ++ ((a.drop i).take (lcpLen (a.drop i) (b.drop j)) ++ s2), ?_, ?_, ?_⟩
      · have h2 : s2.Sublist ((a.drop i).drop (lcpLen (a.drop i) (b.drop j))) := by
          rw [List.drop_drop]
          exact hs2a
        have hsub := hs1a.append ((List.Sublist.refl
          ((a.drop i).take (lcpLen (a.drop i) (b.drop j)))).append h2)
        rw [List.take_append_drop, List.take_append_drop] at hsub
        exact hsub
      · rw [lcpLen_take_eq (a.drop i) (b.drop j)]
        have h2 : s2.Sublist ((b.drop j).drop (lcpLen (a.drop i) (b.drop j))) := by
          rw [List.drop_drop]
          exact hs2b
        have hsub := hs1b.append ((List.Sublist.refl
          ((b.drop j).take (lcpLen (a.drop i) (b.drop j)))).append h2)
        rw [List.take_append_drop, List.take_append_drop] at hsub
        exact hsub
      · have hblk : ((a.drop i).take (lcpLen (a.drop i) (b.drop j))).length =
            lcpLen (a.drop i) (b.drop j) := by
          rw [List.length_take]
          exact Nat.min_eq_left (lcpLen_le_left (a.drop i) (b.drop j))
        have hmt : matchesTotalF (fuel + 1) a b =
            matchesTotalF fuel (a.take i) (b.take j) + lcpLen (a.drop i) (b.drop j) +
              matchesTotalF fuel (a.drop (i + lcpLen (a.drop i) (b.drop j)))
                (b.drop (j + lcpLen (a.drop i) (b.drop j))) := by
          simp [matchesTotalF, hflm, hk0]
        rw [hmt]
        simp only [List.length_append, hblk]
        omega

/-- Pigeonhole for two sublists of one list: they meet in a common
subsequence at least as long as the excess of their total length over the
host's length. -/
theorem sublist_overlap {α : Type} {x S1 : List α} (h1 : S1.Sublist x) :
    ∀ {S2 : List α}, S2.Sublist x →
      ∃ t : List α, t.Sublist S1 ∧ t.Sublist S2 ∧
        S1.length + S2.length ≤ x.length + t.length := by
  induction h1 with
  | slnil =>
    intro S2 h2
    obtain rfl := List.sublist_nil.1 h2
    exact ⟨[], List.Sublist.refl _, List.Sublist.refl _, by simp⟩
  | cons a h ih =>
    intro S2 h2
    cases h2 with
    | cons _ h2' =>
      obtain ⟨t, ht1, ht2, hlen⟩ := ih h2'
      exact ⟨t, ht1, ht2, by simp only [List.length_cons]; omega⟩
    | cons₂ _ h2' =>
      obtain ⟨t, ht1, ht2, hlen⟩ := ih h2'
      exact ⟨t, ht1, List.Sublist.cons a ht2, by simp only [List.length_cons]; omega⟩
  | cons₂ a h ih =>
    intro S2 h2
    cases h2 with
    | cons _ h2' =>
      obtain ⟨t, ht1, ht2, hlen⟩ := ih h2'
      exact ⟨t, List.Sublist.cons a ht1, ht2, by simp only [List.length_cons]; omega⟩
    | cons₂ _ h2' =>
      obtain ⟨t, ht1, ht2, hlen⟩ := ih h2'
      exact ⟨a :: t, List.Sublist.cons₂ a ht1, List.Sublist.cons₂ a ht2, by
        simp only [List.length_cons]; omega⟩

theorem headD_eq_getD_zero (l : List Nat) : l.headD 0 = l.getD 0 0 := by
  cases l <;> rfl

theorem buildRow_length (c : Char) :
    ∀ (b : Str) (prev : List Nat), prev.length = b.length + 1 →
      (buildRow c b prev).length = b.length + 1 := by
  intro b
  induction b with
  | nil => intro prev _; rfl
  | cons bj brest ih =>
    intro prev hlen
    cases prev with
    | nil => simp at hlen
    | cons pj prest =>
      simp only [buildRow, List.length_cons]
      have := ih prest (by simpa using hlen)
      omega

/-- The row invariant of the DP: if `prev` (the row for `as_`) bounds every
common sublist of `as_` and each suffix of `b`, then the new row bounds
every common sublist of `c :: as_` and each suffix of `b`. -/
theorem buildRow_spec (c : Char) (as_ : Str) :
    ∀ (b : Str) (prev : List Nat), prev.length = b.length + 1 →
      (∀ j t, List.Sublist t as_ → List.Sublist t (b.drop j) →
        t.length ≤ prev.getD j 0) →
      ∀ (j : Nat) (t : Str), List.Sublist t (c :: as_) → List.Sublist t (b.drop j) →
        t.length ≤ (buildRow c b prev).getD j 0 := by
  intro b
  induction b with
  | nil =>
    intro prev _ _ j t _ ht2
    have ht : t = [] := List.sublist_nil.1 (by simpa using ht2)
    simp [ht]
  | cons bj brest ih =>
    intro prev hlen hdom j t ht1 ht2
    cases prev with
    | nil => simp at hlen
    | cons pj prest =>
      have hlen' : prest.length = brest.length + 1 := by simpa using hlen
      have hdom' : ∀ j t, List.Sublist t as_ → List.Sublist t (brest.drop j) →
          t.length ≤ prest.getD j 0 := by
        intro j' t' h1 h2
        have := hdom (j' + 1) t' h1 (by simpa using h2)
        simpa using this
      cases j with
      | succ j' =>
        have hr := ih prest hlen' hdom' j' t ht1 (by simpa using ht2)
        simp only [buildRow]
        simpa using hr
      | zero =>
        rw [List.drop_zero] at ht2
        simp only [buildRow, List.getD_cons_zero]
        by_cases hc : c = bj
        · rw [if_pos hc]
          subst hc
          rw [headD_eq_getD_zero]
          cases ht1 with
          | cons _ h1' =>
            cases ht2 with
            | cons _ h2' =>
              have := hdom' 0 t h1' (by simpa using h2')
              omega
            | cons₂ _ h2' =>
              have ht'' := (List.sublist_cons_self c _).trans h1'
              have := hdom' 0 _ ht'' (by simpa using h2')
              simp only [List.length_cons]
              omega
          | cons₂ _ h1' =>
            have h2'' := by
              cases ht2 with
              | cons _ h2' => exact (List.sublist_cons_self c _).trans h2'
              | cons₂ _ h2' => exact h2'
            have := hdom' 0 _ h1' (by simpa using h2'')
            simp only [List.length_cons]
            omega
        · rw [if_neg hc]
          cases ht1 with
          | cons _ h1' =>
            have := hdom 0 t h1' (by simpa using ht2)
            have hle : t.length ≤ pj := by simpa using this
            exact le_trans hle (Nat.le_max_left _ _)
          | cons₂ _ h1' =>
            have h2' := by
              cases ht2 with
              | cons _ h2' => exact h2'
              | cons₂ _ h2' => exact absurd rfl hc
            have hr := ih prest hlen' hdom' 0 _ (List.Sublist.cons₂ c h1')
              (by simpa using h2')
            rw [headD_eq_getD_zero]
            exact le_trans hr (Nat.le_max_right _ _)

theorem lcsRows_length : ∀ (a b : Str), (lcsRows a b).length = b.length + 1 := by
  intro a
  induction a with
  | nil => intro b; simp [lcsRows]
  | cons c as_ ih =>
    intro b
    simp only [lcsRows]
    exact buildRow_length c b (lcsRows as_ b) (ih b)

theorem lcsRows_spec : ∀ (a b : Str) (j : Nat) (t : Str),
    List.Sublist t a → List.Sublist t (b.drop j) →
      t.length ≤ (lcsRows a b).getD j 0 := by
  intro a
  induction a with
  | nil =>
    intro b j t ht1 _
    have ht : t = [] := List.sublist_nil.1 ht1
    simp [ht]
  | cons c as_ ih =>
    intro b j t ht1 ht2
    simp only [lcsRows]
    exact buildRow_spec c as_ b (lcsRows as_ b) (lcsRows_length as_ b)
      (fun j' t' h1 h2 => ih b j' t' h1 h2) j t ht1 ht2

/-- `lcsLen a b` bounds every common subsequence of `a` and `b`. -/
theorem lcsLen_bound {a b t : Str} (h1 : List.Sublist t a) (h2 : List.Sublist t b) :
    t.length ≤ lcsLen a b := by
  have h := lcsRows_spec a b 0 t h1 (by simpa using h2)
  rw [lcsLen, headD_eq_getD_zero]
  exact h

/-- The arithmetic core: if `arithOK n1 n2 L` holds, no matched totals
`M1`, `M2` can put one string of length `x` above ratio `0.9` against both
a length-`n1` and a length-`n2` string whose common subsequences are
bounded by `L`. -/
theorem arithOK_bridge (n1 n2 L x M1 M2 : Nat) (hok : arithOK n1 n2 L = true)
    (h1 : 9 * (x + n1) < 20 * M1) (h2 : 9 * (x + n2) < 20 * M2)
    (hM1n : M1 ≤ n1) (hM2n : M2 ≤ n2) (hM1x : M1 ≤ x) (hM2x : M2 ≤ x)
    (hover : M1 + M2 ≤ x + L) : False := by
  unfold arithOK at hok
  have hmem : x ∈ List.range' (9 * n1 / 11) (11 * n1 / 9 + 1 - 9 * n1 / 11) := by
    rw [List.mem_range'_1]
    omega
  have hall := List.all_eq_true.1 hok x hmem
  have hall' : (!(9 * (x + n1) / 20 + 1 ≤ n1 && 9 * (x + n1) / 20 + 1 ≤ x &&
      9 * (x + n2) / 20 + 1 ≤ n2 && 9 * (x + n2) / 20 + 1 ≤ x &&
      9 * (x + n1) / 20 + 1 + (9 * (x + n2) / 20 + 1) ≤ x + L)) = true := hall
  have hfact : (9 * (x + n1) / 20 + 1 ≤ n1 && 9 * (x + n1) / 20 + 1 ≤ x &&
      9 * (x + n2) / 20 + 1 ≤ n2 && 9 * (x + n2) / 20 + 1 ≤ x &&
      9 * (x + n1) / 20 + 1 + (9 * (x + n2) / 20 + 1) ≤ x + L) = true := by
    simp only [Bool.and_eq_true, decide_eq_true_eq]
    omega
  rw [Bool.not_eq_true'] at hall'
  rw [hfact] at hall'
  exact Bool.noConfusion hall'

set_option maxRecDepth 40000 in
/-- Every key of the shipped subcategory table is nonempty. -/
theorem subcat_keys_nonempty :
    (SUBCATEGORY_NORMALIZATIONS.all fun kv => !kv.1.isEmpty) = true := by decide

theorem table_key_ne_nil {kv : Str × Str} (h : kv ∈ SUBCATEGORY_NORMALIZATIONS) :
    kv.1 ≠ [] := by
  have hh := List.all_eq_true.1 subcat_keys_nonempty kv h
  intro he
  rw [he] at hh
  simp at hh

theorem triCheck_append : ∀ l1 l2 : List (Str × Str),
    triCheck (l1 ++ l2) = (rowsOK l1 l2 && triCheck l2) := by
  intro l1 l2
  induction l1 with
  | nil => simp [rowsOK, triCheck]
  | cons kv rest ih =>
    simp only [List.cons_append, triCheck, rowsOK, List.append_eq, ih, Bool.and_assoc]

set_option maxRecDepth 100000 in
set_option maxHeartbeats 16000000 in
theorem triChunk0 :
    rowsOK (SUBCATEGORY_NORMALIZATIONS.take 9) (SUBCATEGORY_NORMALIZATIONS.drop 9) =
      true := by decide

set_option maxRecDepth 100000 in
set_option maxHeartbeats 16000000 in
theorem triChunk1 :
    rowsOK ((SUBCATEGORY_NORMALIZATIONS.drop 9).take 10)
      (SUBCATEGORY_NORMALIZATIONS.drop 19) = true := by decide

set_option maxRecDepth 100000 in
set_option maxHeartbeats 16000000 in
theorem triChunk2 :
    rowsOK ((SUBCATEGORY_NORMALIZATIONS.drop 19).take 12)
      (SUBCATEGORY_NORMALIZATIONS.drop 31) = true := by decide

set_option maxRecDepth 100000 in
set_option maxHeartbeats 16000000 in
theorem triChunk3 :
    rowsOK ((SUBCATEGORY_NORMALIZATIONS.drop 31).take 15)
      (SUBCATEGORY_NORMALIZATIONS.drop 46) = true := by decide

set_option maxRecDepth 100000 in
set_option maxHeartbeats 16000000 in
theorem triChunk4 :
    rowsOK (SUBCATEGORY_NORMALIZATIONS.drop 46) [] = true := by decide

theorem triCheck_eq_rowsOK_nil : ∀ l : List (Str × Str), triCheck l = rowsOK l [] := by
  intro l
  induction l with
  | nil => rfl
  | cons kv rest ih =>
    simp only [triCheck, rowsOK, List.append_eq, List.append_nil, ih]

/-- The exhaustive triangular check over the table evaluates to `true`
(assembled from the five chunk evaluations). -/
theorem triTable_true : triCheck SUBCATEGORY_NORMALIZATIONS = true := by
  rw [← List.take_append_drop 9 SUBCATEGORY_NORMALIZATIONS, triCheck_append, triChunk0,
    Bool.true_and]
  rw [← List.take_append_drop 10 (SUBCATEGORY_NORMALIZATIONS.drop 9), triCheck_append]
  rw [show (SUBCATEGORY_NORMALIZATIONS.drop 9).drop 10 =
    SUBCATEGORY_NORMALIZATIONS.drop 19 from rfl]
  rw [triChunk1, Bool.true_and]
  rw [← List.take_append_drop 12 (SUBCATEGORY_NORMALIZATIONS.drop 19), triCheck_append]
  rw [show (SUBCATEGORY_NORMALIZATIONS.drop 19).drop 12 =
    SUBCATEGORY_NORMALIZATIONS.drop 31 from rfl]
  rw [triChunk2, Bool.true_and]
  rw [← List.take_append_drop 15 (SUBCATEGORY_NORMALIZATIONS.drop 31), triCheck_append]
  rw [show (SUBCATEGORY_NORMALIZATIONS.drop 31).drop 15 =
    SUBCATEGORY_NORMALIZATIONS.drop 46 from rfl]
  rw [triChunk3, Bool.true_and]
  rw [triCheck_eq_rowsOK_nil, triChunk4]

/-- The triangular check yields pairwise safety along the list. -/
theorem triCheck_pairwise : ∀ l : List (Str × Str), triCheck l = true →
    l.Pairwise (fun a b => pairDualOK a b = true) := by
  intro l
  induction l with
  | nil => intro _; exact List.Pairwise.nil
  | cons kv rest ih =>
    intro h
    simp only [triCheck, Bool.and_eq_true] at h
    exact List.Pairwise.cons (fun b hb => List.all_eq_true.1 h.1 b hb) (ih h.2)

/-- Any two (possibly swapped) entries of the table are a safe pair. -/
theorem table_pair_safe {kv1 kv2 : Str × Str}
    (h1m : kv1 ∈ SUBCATEGORY_NORMALIZATIONS) (h2m : kv2 ∈ SUBCATEGORY_NORMALIZATIONS)
    (hne : kv1 ≠ kv2) :
    pairDualOK kv1 kv2 = true ∨ pairDualOK kv2 kv1 = true := by
  have hpw := (triCheck_pairwise _ triTable_true).imp
    (fun {a b} h => (Or.inl h : pairDualOK a b = true ∨ pairDualOK b a = true))
  have hsym : Symmetric fun a b : Str × Str =>
      pairDualOK a b = true ∨ pairDualOK b a = true := by
    intro a b h
    exact h.elim Or.inr Or.inl
  exact List.Pairwise.forall hsym hpw h1m h2m hne

theorem findLongestMatch_nil_left (b : Str) : findLongestMatch [] b = (0, 0, 0) := rfl

theorem matchesTotalF_nil_left : ∀ (fuel : Nat) (l : Str), matchesTotalF fuel [] l = 0 := by
  intro fuel l
  cases fuel with
  | zero => rfl
  | succ f => simp [matchesTotalF, findLongestMatch_nil_left]

theorem findSome?_eq_none_char {α β : Type} (f : α → Option β) :
    ∀ l : List α, l.findSome? f = none ↔ ∀ a ∈ l, f a = none := by
  intro l
  induction l with
  | nil => simp
  | cons c cs ih =>
    rw [List.findSome?_cons]
    cases hfc : f c with
    | some v =>
      simp only [List.mem_cons]
      constructor
      · intro h; cases h
      · intro h
        have := h c (Or.inl rfl)
        rw [hfc] at this
        cases this
    | none =>
      simp only [List.mem_cons]
      rw [ih]
      constructor
      · intro h a ha
        rcases ha with rfl | ha
        · exact hfc
        · exact h a ha
      · intro h a ha
        exact h a (Or.inr ha)

/-- No input string can be more than `0.9`-similar to two table keys with
different canonical values: the first fuzzy hit is therefore the best one. -/
theorem dual_match_eq_value {x : Str} {kv1 kv2 : Str × Str}
    (h1m : kv1 ∈ SUBCATEGORY_NORMALIZATIONS) (h2m : kv2 ∈ SUBCATEGORY_NORMALIZATIONS)
    (h1 : fracGT (simFrac x (lowerStr kv1.1)) (9, 10) = true)
    (h2 : fracGT (simFrac x (lowerStr kv2.1)) (9, 10) = true) :
    kv1.2 = kv2.2 := by
  have hk1 : kv1.1 ≠ [] := table_key_ne_nil h1m
  have hk2 : kv2.1 ≠ [] := table_key_ne_nil h2m
  have hlen1 : (lowerStr kv1.1).length = kv1.1.length := List.length_map _ _
  have hlen2 : (lowerStr kv2.1).length = kv2.1.length := List.length_map _ _
  have hpos1 : 0 < kv1.1.length := List.length_pos.2 hk1
  have hpos2 : 0 < kv2.1.length := List.length_pos.2 hk2
  have hT1 : ¬(x.length + (lowerStr kv1.1).length = 0) := by omega
  have hT2 : ¬(x.length + (lowerStr kv2.1).length = 0) := by omega
  rw [simFrac, if_neg hT1, fracGT_iff] at h1
  rw [simFrac, if_neg hT2, fracGT_iff] at h2
  have h1' : 9 * (x.length + (lowerStr kv1.1).length) <
      2 * matchesTotal x (lowerStr kv1.1) * 10 := h1
  have h2' : 9 * (x.length + (lowerStr kv2.1).length) <
      2 * matchesTotal x (lowerStr kv2.1) * 10 := h2
  obtain ⟨s1, hs1x, hs1k, hm1⟩ :=
    matchesTotalF_sublist (x.length + (lowerStr kv1.1).length) x (lowerStr kv1.1)
  obtain ⟨s2, hs2x, hs2k, hm2⟩ :=
    matchesTotalF_sublist (x.length + (lowerStr kv2.1).length) x (lowerStr kv2.1)
  have hm1' : s1.length = matchesTotal x (lowerStr kv1.1) := hm1
  have hm2' : s2.length = matchesTotal x (lowerStr kv2.1) := hm2
  obtain ⟨t, hts1, hts2, hover⟩ := sublist_overlap hs1x hs2x
  have htk1 : List.Sublist t (lowerStr kv1.1) := hts1.trans hs1k
  have htk2 : List.Sublist t (lowerStr kv2.1) := hts2.trans hs2k
  have htlcs : t.length ≤ lcsLen (lowerStr kv1.1) (lowerStr kv2.1) := lcsLen_bound htk1 htk2
  have hb1 : s1.length ≤ x.length := hs1x.length_le
  have hb2 : s2.length ≤ x.length := hs2x.length_le
  have hc1 : s1.length ≤ kv1.1.length := by have := hs1k.length_le; omega
  have hc2 : s2.length ≤ kv2.1.length := by have := hs2k.length_le; omega
  have htl1 : t.length ≤ kv1.1.length := by have := htk1.length_le; omega
  have htl2 : t.length ≤ kv2.1.length := by have := htk2.length_le; omega
  have hh1 : 9 * (x.length + kv1.1.length) < 20 * s1.length := by omega
  have hh2 : 9 * (x.length + kv2.1.length) < 20 * s2.length := by omega
  by_contra hne
  have hkvne : kv1 ≠ kv2 := fun he => hne (by rw [he])
  rcases table_pair_safe h1m h2m hkvne with hp | hp
  · have hbeq : (kv1.2 == kv2.2) = false := beq_eq_false_iff_ne.2 hne
    simp only [pairDualOK, hbeq, Bool.false_or, Bool.or_eq_true] at hp
    rcases hp with hA | hA
    · have hoverA : s1.length + s2.length ≤ x.length + min kv1.1.length kv2.1.length := by
        have hmin : t.length ≤ min kv1.1.length kv2.1.length := le_min htl1 htl2
        omega
      exact arithOK_bridge _ _ _ _ _ _ hA hh1 hh2 hc1 hc2 hb1 hb2 hoverA
    · have hoverB : s1.length + s2.length ≤
          x.length + lcsLen (lowerStr kv1.1) (lowerStr kv2.1) := by omega
      exact arithOK_bridge _ _ _ _ _ _ hA hh1 hh2 hc1 hc2 hb1 hb2 hoverB
  · have hbeq : (kv2.2 == kv1.2) = false := beq_eq_false_iff_ne.2 (Ne.symm hne)
    simp only [pairDualOK, hbeq, Bool.false_or, Bool.or_eq_true] at hp
    have htlcs' : t.length ≤ lcsLen (lowerStr kv2.1) (lowerStr kv1.1) :=
      lcsLen_bound htk2 htk1
    rcases hp with hA | hA
    · have hoverA : s2.length + s1.length ≤ x.length + min kv2.1.length kv1.1.length := by
        have hmin : t.length ≤ min kv2.1.length kv1.1.length := le_min htl2 htl1
        omega
      exact arithOK_bridge _ _ _ _ _ _ hA hh2 hh1 hc2 hc1 hb2 hb1 hoverA
    · have hoverB : s2.length + s1.length ≤
          x.length + lcsLen (lowerStr kv2.1) (lowerStr kv1.1) := by omega
      exact arithOK_bridge _ _ _ _ _ _ hA hh2 hh1 hc2 hc1 hb2 hb1 hoverB

set_option maxRecDepth 40000 in
set_option maxHeartbeats 2000000 in
/-- Claim C6: subcategory normalization contract.  (1) If the trimmed input
is an exact key of the alias table, the key's canonical value is returned.
(2) Otherwise, for any table key with the best similarity to the trimmed
input, if that best similarity exceeds `0.9` the result is that key's
canonical value.  (3) Otherwise (no key exceeds `0.9`) the trimmed input is
returned unchanged.  (4)/(5) `"Beer & Cider"` and `"Beer and Ciders"` both
normalize to `"Beer"`. -/
theorem C6_subcategory_normalization_contract (s : Str) :
    (∀ v, SUBCATEGORY_NORMALIZATIONS.lookup (pyStrip s) = some v →
        normalize_subcategory s = v) ∧
    (SUBCATEGORY_NORMALIZATIONS.lookup (pyStrip s) = none →
      ∀ kv ∈ SUBCATEGORY_NORMALIZATIONS,
        (∀ kv' ∈ SUBCATEGORY_NORMALIZATIONS,
            fracGE (simFrac (lowerStr (pyStrip s)) (lowerStr kv.1))
              (simFrac (lowerStr (pyStrip s)) (lowerStr kv'.1)) = true) →
        fracGT (simFrac (lowerStr (pyStrip s)) (lowerStr kv.1)) (9, 10) = true →
        normalize_subcategory s = kv.2) ∧
    (SUBCATEGORY_NORMALIZATIONS.lookup (pyStrip s) = none →
      (∀ kv ∈ SUBCATEGORY_NORMALIZATIONS,
          fracGT (simFrac (lowerStr (pyStrip s)) (lowerStr kv.1)) (9, 10) = false) →
      normalize_subcategory s = pyStrip s) ∧
    normalize_subcategory (str "Beer & Cider") = str "Beer" ∧
    normalize_subcategory (str "Beer and Ciders") = str "Beer" := by
  refine ⟨?_, ?_, ?_, by decide, by decide⟩
  · intro v hv
    by_cases hs : s = []
    · subst hs
      have hmem := mem_of_lookup_table hv
      have h := List.all_eq_true.1 subcat_keys_nonempty _ hmem
      have hnil : pyStrip ([] : Str) = [] := rfl
      rw [hnil] at h
      simp at h
    · simp only [normalize_subcategory, hv]
      rw [if_neg hs]
  · intro hlk kv hkv _ hGT
    have hs : s ≠ [] := by
      intro he
      subst he
      have hknil := table_key_ne_nil hkv
      have hlm : (lowerStr kv.1).length = kv.1.length := List.length_map _ _
      have hpos : 0 < kv.1.length := List.length_pos.2 hknil
      have hxnil : lowerStr (pyStrip ([] : Str)) = [] := rfl
      rw [hxnil] at hGT
      have hT : ¬(([] : Str).length + (lowerStr kv.1).length = 0) := by
        have h0 : ([] : Str).length = 0 := rfl
        omega
      rw [simFrac, if_neg hT, fracGT_iff] at hGT
      have hGT' : 9 * (([] : Str).length + (lowerStr kv.1).length) <
          2 * matchesTotal [] (lowerStr kv.1) * 10 := hGT
      unfold matchesTotal at hGT'
      rw [matchesTotalF_nil_left] at hGT'
      have h0 : ([] : Str).length = 0 := rfl
      omega
    cases hfz : SUBCATEGORY_NORMALIZATIONS.findSome? (fun kv' =>
        if fracGT (simFrac (lowerStr (pyStrip s)) (lowerStr kv'.1)) (9, 10) then some kv'.2
        else none) with
    | none =>
      have hnone := (findSome?_eq_none_char _ _).1 hfz kv hkv
      rw [if_pos hGT] at hnone
      cases hnone
    | some w =>
      have hres : normalize_subcategory s = w := by
        simp only [normalize_subcategory, hlk, hfz]
        rw [if_neg hs]
      obtain ⟨kvf, hkvf, hfsome⟩ := List.exists_of_findSome?_eq_some hfz
      have hwf : fracGT (simFrac (lowerStr (pyStrip s)) (lowerStr kvf.1)) (9, 10) = true ∧
          w = kvf.2 := by
        by_cases hc : fracGT (simFrac (lowerStr (pyStrip s)) (lowerStr kvf.1)) (9, 10) = true
        · rw [if_pos hc] at hfsome
          exact ⟨hc, (Option.some_inj.1 hfsome).symm⟩
        · rw [if_neg hc] at hfsome
          cases hfsome
      rw [hres, hwf.2]
      exact dual_match_eq_value hkvf hkv hwf.1 hGT
  · intro hlk hnone
    by_cases hs : s = []
    · subst hs; rfl
    · have hfz : (SUBCATEGORY_NORMALIZATIONS.findSome? fun kv =>
          if fracGT (simFrac (lowerStr (pyStrip s)) (lowerStr kv.1)) (9, 10) then some kv.2
          else none) = none := by
        rw [findSome?_eq_none_char]
        intro kv hkv
        have h := hnone kv hkv
        simp [h]
      simp only [normalize_subcategory, hlk, hfz]
      rw [if_neg hs]

set_option maxRecDepth 40000 in
set_option maxHeartbeats 2000000 in
/-- Claim C6 witness: `"Rose Wines"` is not a table key; its best fuzzy
match is the key `"Rose Wine"` (ratio `18/19 > 0.9`), whose canonical
value `"Rose Wines"` is returned. -/
theorem C6_subcategory_normalization_contract_witness :
    normalize_subcategory (str "Rose Wines") = str "Rose Wines" :=
  (C6_subcategory_normalization_contract (str "Rose Wines")).2.1 (by decide)
    (str "Rose Wine", str "Rose Wines") (by decide) (by decide) (by decide)

end Alcohol


/-! # Claim C7: idempotence of subcategory normalization.  Each canonical
value of the table is shown to be a fixed point: values that are
themselves keys resolve by exact lookup; the remaining values either
carry a certificate key (similar above `0.9` with the same canonical
value, so by `dual_match_eq_value` the first fuzzy hit returns exactly
that value) or, for `"Beer"`, evaluate directly. -/

namespace Alcohol

theorem subcat_values_nonempty :
    (SUBCATEGORY_NORMALIZATIONS.all fun kv => !kv.2.isEmpty) = true := by decide

/-- For every table value that is an exact key, the looked-up canonical
value is the value itself. -/
theorem subcat_lookup_fixed :
    (SUBCATEGORY_NORMALIZATIONS.all fun kv =>
      (SUBCATEGORY_NORMALIZATIONS.lookup (pyStrip kv.2)).getD kv.2 == kv.2) = true := by
  decide

set_option maxRecDepth 40000 in
set_option maxHeartbeats 4000000 in
/-- Every certificate is genuine: the certificate pair is a table entry,
its canonical value is the certified value, and its key is more than
`0.9`-similar to the certified value. -/
theorem valueCerts_ok :
    (valueCerts.all fun c =>
      decide (c.2 ∈ SUBCATEGORY_NORMALIZATIONS) && (c.2.2 == c.1) &&
        fracGT (simFrac (lowerStr (pyStrip c.1)) (lowerStr c.2.1)) (9, 10)) = true := by
  decide

/-- Every table value is an exact key, or `"Beer"`, or certified. -/
theorem valueCerts_cover :
    (SUBCATEGORY_NORMALIZATIONS.all fun kv =>
      (SUBCATEGORY_NORMALIZATIONS.lookup (pyStrip kv.2)).isSome ||
        kv.2 == str "Beer" || (valueCerts.lookup kv.2).isSome) = true := by decide

set_option maxRecDepth 40000 in
set_option maxHeartbeats 4000000 in
/-- `"Beer"` is not a key and no key is more than `0.9`-similar to it, so
normalization returns it unchanged (direct evaluation). -/
theorem beer_fixed : normalize_subcategory (str "Beer") = str "Beer" := by decide

/-- Every canonical value of the subcategory table is a fixed point of
`normalize_subcategory`. -/
theorem subcat_value_fixed :
    ∀ kv ∈ SUBCATEGORY_NORMALIZATIONS, normalize_subcategory kv.2 = kv.2 := by
  intro kv hkv
  have hvne : kv.2 ≠ [] := by
    have hh := List.all_eq_true.1 subcat_values_nonempty kv hkv
    intro he
    rw [he] at hh
    simp at hh
  cases hlk : SUBCATEGORY_NORMALIZATIONS.lookup (pyStrip kv.2) with
  | some w =>
    have hres : normalize_subcategory kv.2 = w := by
      simp only [normalize_subcategory, hlk]
      rw [if_neg hvne]
    have hfix := List.all_eq_true.1 subcat_lookup_fixed kv hkv
    rw [hlk] at hfix
    rw [hres]
    simpa using hfix
  | none =>
    by_cases hbeer : kv.2 = str "Beer"
    · rw [hbeer]
      exact beer_fixed
    · have hcov := List.all_eq_true.1 valueCerts_cover kv hkv
      rw [hlk] at hcov
      have hbeq : (kv.2 == str "Beer") = false := beq_eq_false_iff_ne.2 hbeer
      simp only [Option.isSome_none, hbeq, Bool.false_or] at hcov
      obtain ⟨cp, hcp⟩ := Option.isSome_iff_exists.1 hcov
      have hcpmem := mem_of_lookup_table hcp
      have hok := List.all_eq_true.1 valueCerts_ok _ hcpmem
      simp only [Bool.and_eq_true, decide_eq_true_eq, beq_iff_eq] at hok
      obtain ⟨⟨hcpt, hcpv⟩, hcpGT⟩ := hok
      cases hfz : SUBCATEGORY_NORMALIZATIONS.findSome? (fun kv' =>
          if fracGT (simFrac (lowerStr (pyStrip kv.2)) (lowerStr kv'.1)) (9, 10) then
            some kv'.2
          else none) with
      | none =>
        have hnone := (findSome?_eq_none_char _ _).1 hfz cp hcpt
        rw [if_pos hcpGT] at hnone
        cases hnone
      | some w =>
        have hres : normalize_subcategory kv.2 = w := by
          simp only [normalize_subcategory, hlk, hfz]
          rw [if_neg hvne]
        obtain ⟨kvf, hkvf, hfsome⟩ := List.exists_of_findSome?_eq_some hfz
        have hwf : fracGT (simFrac (lowerStr (pyStrip kv.2)) (lowerStr kvf.1)) (9, 10) =
            true ∧ w = kvf.2 := by
          by_cases hc : fracGT (simFrac (lowerStr (pyStrip kv.2)) (lowerStr kvf.1))
              (9, 10) = true
          · rw [if_pos hc] at hfsome
            exact ⟨hc, (Option.some_inj.1 hfsome).symm⟩
          · rw [if_neg hc] at hfsome
            cases hfsome
        rw [hres, hwf.2, ← hcpv]
        exact dual_match_eq_value hkvf hcpt hwf.1 hcpGT

/-- Claim C7: `normalize_subcategory` is idempotent on every string with
the shipped alias table. -/
theorem C7_normalize_subcategory_idempotent (x : Str) :
    normalize_subcategory (normalize_subcategory x) = normalize_subcategory x := by
  by_cases hx : x = []
  · rw [hx]; rfl
  · cases hlook : SUBCATEGORY_NORMALIZATIONS.lookup (pyStrip x) with
    | some v =>
      have hres : normalize_subcategory x = v := by
        simp only [normalize_subcategory, hlook]
        rw [if_neg hx]
      rw [hres]
      exact subcat_value_fixed _ (mem_of_lookup_table hlook)
    | none =>
      cases hfuzz : SUBCATEGORY_NORMALIZATIONS.findSome? (fun kv =>
          if fracGT (simFrac (lowerStr (pyStrip x)) (lowerStr kv.1)) (9, 10) then some kv.2
          else none) with
      | some v =>
        have hres : normalize_subcategory x = v := by
          simp only [normalize_subcategory, hlook, hfuzz]
          rw [if_neg hx]
        rw [hres]
        obtain ⟨kv, hkv, hsome⟩ := List.exists_of_findSome?_eq_some hfuzz
        have hv : v = kv.2 := by
          by_cases hcond : fracGT (simFrac (lowerStr (pyStrip x)) (lowerStr kv.1))
              (9, 10) = true
          · rw [if_pos hcond] at hsome
            exact (Option.some_inj.1 hsome).symm
          · rw [if_neg hcond] at hsome
            cases hsome
        rw [hv]
        exact subcat_value_fixed _ hkv
      | none =>
        have hres : normalize_subcategory x = pyStrip x := by
          simp only [normalize_subcategory, hlook, hfuzz]
          rw [if_neg hx]
        rw [hres]
        by_cases hc : pyStrip x = []
        · rw [hc]; rfl
        · simp only [normalize_subcategory, pyStrip_idem, hlook, hfuzz]
          rw [if_neg hc]

/-- Claim C7 witness: idempotence instantiated at a concrete fuzzy-path
input. -/
theorem C7_normalize_subcategory_idempotent_witness :
    normalize_subcategory (normalize_subcategory (str "Beer and Ciderz")) =
      normalize_subcategory (str "Beer and Ciderz") :=
  C7_normalize_subcategory_idempotent (str "Beer and Ciderz")

end Alcohol
